import Mathlib

/-!
Verification of the candidate evidence-scoring and deduplication subsystem of
the ICP discovery engine.  The Python sources are shallowly embedded:

* `src/src/deduplication/deduplicator.py` — name normalization, fuzzy
  similarity (via `difflib.SequenceMatcher`), pairwise duplicate detection and
  greedy conflict resolution;
* `evals/organization_uniqueness.py` — the evaluator's variant of
  normalization and similarity;
* `src/src/scoring/healthcare.py`, `corporate.py`, `providers.py` — the three
  segment scorers, including the free-text extraction heuristics and the
  evidence-map write-backs.

Strings are modelled as `List Char` (ASCII semantics for `\w`, `\s`,
`str.lower`), Python floats as `ℚ`, and Python dicts as records/association
lists.  Each embedded definition mirrors one Python function.
-/

namespace ICP

/-- Python `\s` (ASCII whitespace characters). -/
def pySpace (c : Char) : Bool :=
  c == ' ' || c == '\t' || c == '\n' || c == '\r' || c == Char.ofNat 11 || c == Char.ofNat 12

/-- Python `\w` (word character), ASCII fragment: alphanumeric or underscore. -/
def wordChar (c : Char) : Bool :=
  c.isAlphanum || c == '_'

/-- Python `str.lower`, ASCII fragment, on character lists. -/
def pyLower (l : List Char) : List Char :=
  l.map Char.toLower

/-- Python `str.strip()` on character lists: drop whitespace from both ends. -/
def pyStripL (l : List Char) : List Char :=
  ((l.dropWhile pySpace).reverse.dropWhile pySpace).reverse

/-!
## `difflib.SequenceMatcher` (no junk, no autojunk: all inputs are short)

`klen a b alo blo i j` is the length of the longest common suffix of
`a[alo..i]` and `b[blo..j]` ending exactly at positions `i`, `j` — the value
the `j2len` dynamic program of `find_longest_match` stores for cell `(i, j)`.
-/

def klen (a b : List Char) (alo blo : Nat) : Nat → Nat → Nat
  | 0, j => if (a.get? 0).isSome ∧ a.get? 0 = b.get? j then 1 else 0
  | i + 1, 0 => if (a.get? (i + 1)).isSome ∧ a.get? (i + 1) = b.get? 0 then 1 else 0
  | i + 1, j + 1 =>
    if (a.get? (i + 1)).isSome ∧ a.get? (i + 1) = b.get? (j + 1) then
      if alo ≤ i ∧ blo ≤ j then klen a b alo blo i j + 1 else 1
    else 0

/-- `SequenceMatcher.find_longest_match` on the window `[alo,ahi) × [blo,bhi)`:
scan ends `(i, j)` in the same order as the Python loops (`i` ascending, `j`
ascending) and record a block only on strictly larger length, returning the
block as `(besti, bestj, bestsize)`.  With no junk the two post-loop extension
phases of the Python code are no-ops, so they are not modelled. -/
def findLongestMatch (a b : List Char) (alo ahi blo bhi : Nat) : Nat × Nat × Nat :=
  ((List.range' alo (ahi - alo)).flatMap
    (fun i => (List.range' blo (bhi - blo)).map (fun j => (i, j)))).foldl
    (fun best ij =>
      let k := klen a b alo blo ij.1 ij.2
      if best.2.2 < k then (ij.1 + 1 - k, ij.2 + 1 - k, k) else best)
    (alo, blo, 0)

/-- Total size of all matching blocks of `get_matching_blocks`, computed by the
recursive splitting around each longest match.  `fuel` bounds the recursion
depth; `(ahi - alo) + (bhi - blo)` always suffices. -/
def matchSumAux (a b : List Char) : Nat → Nat → Nat → Nat → Nat → Nat
  | 0, _, _, _, _ => 0
  | fuel + 1, alo, ahi, blo, bhi =>
    let m := findLongestMatch a b alo ahi blo bhi
    if m.2.2 = 0 then 0
    else m.2.2 + matchSumAux a b fuel alo m.1 blo m.2.1 +
      matchSumAux a b fuel (m.1 + m.2.2) ahi (m.2.1 + m.2.2) bhi

/-- Total number of matched characters between `a` and `b`. -/
def matchTotal (a b : List Char) : Nat :=
  matchSumAux a b (a.length + b.length) 0 a.length 0 b.length

/-- `SequenceMatcher.ratio()`: `2*M/T`, and `1.0` when both strings are
empty. -/
def seqRatio (a b : List Char) : ℚ :=
  if a.length + b.length = 0 then 1
  else (2 * matchTotal a b : ℕ) / ((a.length + b.length : ℕ) : ℚ)

/-- Python `max` on two rationals (`max(a, b)` returns `b` only when
`a < b`). -/
def pyMax (a b : ℚ) : ℚ :=
  if a < b then b else a

/-- Python `needle in hay` (contiguous substring test). -/
def pyContains (needle : List Char) : List Char → Bool
  | [] => needle.isPrefixOf []
  | c :: t => needle.isPrefixOf (c :: t) || pyContains needle t

/-!
## `Deduplicator.normalize_organization_name`

`re.sub(r'\b(w1|w2|…)\bʼ, '', s)` for a fixed list of all-alphabetic
alternatives is a left-to-right scan: at every position that is at a word
boundary, the first alternative that is a prefix of the rest and is followed
by a non-word character (or the end) is deleted, and scanning resumes after
it; other characters are copied.  `prev` records whether the previous
character of the *original* string was a word character (the `\b` context
after a deletion).
-/

/-- First alternative of `L` matching at the head of `l` with a word boundary
after it (the leading boundary is checked by the caller). -/
def findWordMatch (L : List (List Char)) (l : List Char) : Option (List Char) :=
  L.find? (fun w => w.isPrefixOf l &&
    (match l.drop w.length with
     | [] => true
     | c :: _ => !wordChar c))

/-- The scan of `re.sub(r'\b(…)\b', '', ·)`.  A match of length `n` is
consumed by dropping the current character and counting `skip = n - 1`
further characters down (which keeps the recursion structural); while
`skip > 0` the scanner is inside a deleted word, whose characters are word
characters, so the boundary flag is `true` when it resumes. -/
def removeWordsAux (L : List (List Char)) : Bool → Nat → List Char → List Char
  | _, _, [] => []
  | _, skip + 1, _ :: cs => removeWordsAux L true skip cs
  | prev, 0, c :: cs =>
    if prev then c :: removeWordsAux L (wordChar c) 0 cs
    else
      match findWordMatch L (c :: cs) with
      | some w => removeWordsAux L true (w.length - 1) cs
      | none => c :: removeWordsAux L (wordChar c) 0 cs

/-- `re.sub(r'[^\w\s]', ' ', ·)`. -/
def punctToSpace (l : List Char) : List Char :=
  l.map (fun c => if !wordChar c && !pySpace c then ' ' else c)

/-- `re.sub(r'\s+', ' ', ·)`: every maximal whitespace run becomes one
space; `prevSp` records whether the previous character was whitespace. -/
def collapseSpacesAux : Bool → List Char → List Char
  | _, [] => []
  | prevSp, c :: cs =>
    if pySpace c then
      if prevSp then collapseSpacesAux true cs
      else ' ' :: collapseSpacesAux true cs
    else c :: collapseSpacesAux false cs

/-- `re.sub(r'\s+', ' ', ·)`. -/
def collapseSpaces (l : List Char) : List Char :=
  collapseSpacesAux false l

/-- The first alternation of `legal_suffixes` in
`Deduplicator.normalize_organization_name`. -/
def legalWords1 : List (List Char) :=
  ["inc", "llc", "ltd", "corporation", "corp", "company", "co", "limited",
   "incorporated"].map String.data

/-- The second alternation of `legal_suffixes`. -/
def legalWords2 : List (List Char) :=
  ["health", "healthcare", "medical", "center", "clinic", "hospital",
   "system", "group", "associates", "partners"].map String.data

/-- `Deduplicator.normalize_organization_name` on character lists. -/
def dedupNormalizeL (l : List Char) : List Char :=
  if l = [] then []
  else
    pyStripL (collapseSpaces (punctToSpace
      (removeWordsAux legalWords2 false 0
        (removeWordsAux legalWords1 false 0 (pyLower l)))))

/-- `Deduplicator.normalize_organization_name`. -/
def dedupNormalize (s : String) : String :=
  ⟨dedupNormalizeL s.data⟩

/-- The maximal runs of word characters of a string (the tokens that all the
regex passes of `normalize_organization_name` operate on); used to analyse the
normalization pipeline. -/
def wordRuns : List Char → List (List Char)
  | [] => []
  | c :: cs =>
    if wordChar c then (c :: cs.takeWhile wordChar) :: wordRuns (cs.dropWhile wordChar)
    else wordRuns cs
  termination_by l => l.length
  decreasing_by
  · simp only [List.length_cons]
    exact Nat.lt_succ_of_le (List.dropWhile_sublist _).length_le
  · simp only [List.length_cons]
    exact Nat.lt_succ_self _

/-!
## Similarity
-/

/-- Python `str.split()` (split on whitespace runs, no empty pieces),
with the current word accumulated in reverse. -/
def pySplitWsAux : List Char → List Char → List (List Char)
  | cur, [] => if cur = [] then [] else [cur.reverse]
  | cur, c :: cs =>
    if pySpace c then
      if cur = [] then pySplitWsAux [] cs
      else cur.reverse :: pySplitWsAux [] cs
    else pySplitWsAux (c :: cur) cs

/-- Python `str.split()`. -/
def pySplitWs (l : List Char) : List (List Char) :=
  pySplitWsAux [] l

/-- `set(s.split())` as a `Finset` of strings. -/
def wordSet (s : String) : Finset String :=
  ((pySplitWs s.data).map (fun l => (⟨l⟩ : String))).toFinset

/-- `Deduplicator.calculate_similarity`: `0.0` on falsy (empty) raw names,
`1.0` on equal normalized names, otherwise the `SequenceMatcher` ratio
averaged with the word-overlap ratio (when both word sets are non-empty). -/
def dedupCalculateSimilarity (name1 name2 : String) : ℚ :=
  if name1.data = [] ∨ name2.data = [] then 0
  else
    let norm1 := dedupNormalize name1
    let norm2 := dedupNormalize name2
    if norm1 = norm2 then 1
    else
      let similarity := seqRatio norm1.data norm2.data
      let words1 := wordSet norm1
      let words2 := wordSet norm2
      if words1 ≠ ∅ ∧ words2 ≠ ∅ then
        (similarity +
          ((words1 ∩ words2).card : ℚ) / ((max words1.card words2.card : ℕ) : ℚ)) / 2
      else similarity

/-!
## The evaluator's `normalize_organization_name`
(`evals/organization_uniqueness.py`): end-anchored suffix patterns, each
applied once, in source order.
-/

/-- One suffix pattern `\s+word[s?][\.?]$`: `optS` marks a `s?` before the
anchor, `optDot` a `\.?`. -/
structure SuffixPat where
  word : List Char
  optS : Bool
  optDot : Bool

/-- The `suffixes_to_remove` list of the evaluator, in source order. -/
def evalSuffixes : List SuffixPat :=
  [⟨"inc".data, false, true⟩, ⟨"llc".data, false, true⟩,
   ⟨"corp".data, false, true⟩, ⟨"ltd".data, false, true⟩,
   ⟨"company".data, false, false⟩, ⟨"co".data, false, true⟩,
   ⟨"corporation".data, false, false⟩, ⟨"limited".data, false, false⟩,
   ⟨"group".data, false, false⟩, ⟨"system".data, true, false⟩,
   ⟨"solution".data, true, false⟩, ⟨"service".data, true, false⟩,
   ⟨"international".data, false, false⟩, ⟨"global".data, false, false⟩,
   ⟨"worldwide".data, false, false⟩, ⟨"healthcare".data, false, false⟩,
   ⟨"health".data, false, false⟩, ⟨"medical".data, false, false⟩,
   ⟨"hospital".data, false, false⟩, ⟨"training".data, false, false⟩,
   ⟨"academy".data, false, false⟩, ⟨"university".data, false, false⟩,
   ⟨"institute".data, false, false⟩]

/-- Strip one end-anchored suffix `\s+w$` (for a concrete ending `w`): if `l`
ends with `w` preceded by at least one whitespace character, remove the ending
and the whole preceding whitespace run. -/
def stripEnding (w : List Char) (l : List Char) : Option (List Char) :=
  if w.isSuffixOf l then
    let core := (l.take (l.length - w.length)).reverse
    match core with
    | [] => none
    | c :: _ => if pySpace c then some (core.dropWhile pySpace).reverse else none
  else none

/-- `re.sub(pat, '', l)` for one pattern of `suffixes_to_remove`.  At most one
of the concrete endings (`word`, `word+"s"`, `word+"."`) can match the
end-anchored pattern, so they are tried in any fixed order. -/
def applySuffixPat (p : SuffixPat) (l : List Char) : List Char :=
  match stripEnding (p.word ++ if p.optS then ['s'] else []) l with
  | some r => r
  | none =>
    if p.optS then
      match stripEnding p.word l with
      | some r => r
      | none => l
    else if p.optDot then
      match stripEnding (p.word ++ ['.']) l with
      | some r => r
      | none => l
    else l

/-- The evaluator's `normalize_organization_name` on character lists. -/
def evalNormalizeL (l : List Char) : List Char :=
  if l = [] then []
  else
    pyStripL (collapseSpaces (punctToSpace
      (evalSuffixes.foldl (fun acc p => applySuffixPat p acc) (pyStripL (pyLower l)))))

/-- The evaluator's `normalize_organization_name`. -/
def evalNormalize (s : String) : String :=
  ⟨evalNormalizeL s.data⟩

/-- The evaluator's `calculate_similarity`: sequence ratio, raised to at least
`0.8` on substring containment and to at least `0.9` on ≥ 80 % word overlap
(denominator: the *smaller* word set). -/
def evalCalculateSimilarity (name1 name2 : String) : ℚ :=
  let norm1 := evalNormalize name1
  let norm2 := evalNormalize name2
  if norm1.data = [] ∨ norm2.data = [] then 0
  else if norm1 = norm2 then 1
  else
    let sim0 := seqRatio norm1.data norm2.data
    let sim1 :=
      if pyContains norm1.data norm2.data || pyContains norm2.data norm1.data then
        pyMax sim0 (mkRat 8 10)
      else sim0
    let words1 := wordSet norm1
    let words2 := wordSet norm2
    if words1 ≠ ∅ ∧ words2 ≠ ∅ then
      if mkRat 8 10 ≤
          ((words1 ∩ words2).card : ℚ) / ((min words1.card words2.card : ℕ) : ℚ) then
        pyMax sim1 (mkRat 9 10)
      else sim1
    else sim1

/-!
## `Deduplicator.find_duplicates` / `deduplicate_organizations`

An organization dict is modelled by the six string fields the deduplicator
reads (`dict.get(field, '')` makes every absent field the empty string).
-/

structure Org where
  organization : String
  region : String
  evidence_url : String
  tier : String
  score : String
  notes : String
deriving DecidableEq

instance : Inhabited Org := ⟨⟨"", "", "", "", "", ""⟩⟩

/-- An `Org` with only the `organization` field set, as for candidates that
carry no other data. -/
def mkOrg (name : String) : Org := ⟨name, "", "", "", "", ""⟩

/-- `value and value.lower() not in ['', 'na', 'n/a', 'none']` for a stripped
field value. -/
def goodVal (s : String) : Bool :=
  let v := pyStripL s.data
  v ≠ [] && !(["", "na", "n/a", "none"].map String.data).contains (pyLower v)

/-- `Deduplicator._calculate_completeness_score`. -/
def completenessScore (o : Org) : ℚ :=
  ((2 * (([o.organization, o.region, o.evidence_url].filter goodVal).length) +
    ([o.tier, o.score, o.notes].filter goodVal).length : ℕ) : ℚ) / ((3 * 2 + 3 : ℕ) : ℚ)

/-- `Deduplicator.find_duplicates`: all pairs `i < j` whose names reach the
similarity threshold, in loop order. -/
def findDuplicates (threshold : ℚ) (orgs : List Org) : List (ℕ × ℕ × ℚ) :=
  ((List.range orgs.length).flatMap
    (fun i => (List.range' (i + 1) (orgs.length - (i + 1))).map (fun j => (i, j)))).filterMap
    (fun ij =>
      let s := dedupCalculateSimilarity (orgs.getD ij.1 default).organization
        (orgs.getD ij.2 default).organization
      if threshold ≤ s then some (ij.1, ij.2, s) else none)

/-- Insert-or-update into the insertion-ordered `confidence_scores` map. -/
def setAssoc (l : List (String × ℚ)) (k : String) (v : ℚ) : List (String × ℚ) :=
  if l.any (fun p => p.1 == k) then l.map (fun p => if p.1 == k then (k, v) else p)
  else l ++ [(k, v)]

/-- One iteration of the duplicate-resolution loop of
`deduplicate_organizations`: skip if either index was already evicted,
otherwise evict the side with the smaller completeness score (ties keep the
left index). -/
def dedupStep (orgs : List Org) (st : Finset ℕ × List (String × ℚ))
    (d : ℕ × ℕ × ℚ) : Finset ℕ × List (String × ℚ) :=
  if d.1 ∈ st.1 ∧ d.2.1 ∈ st.1 then
    let org1 := orgs.getD d.1 default
    let org2 := orgs.getD d.2.1 default
    if completenessScore org2 ≤ completenessScore org1 then
      (st.1.erase d.2.1, setAssoc st.2 org1.organization d.2.2)
    else
      (st.1.erase d.1, setAssoc st.2 org2.organization d.2.2)
  else st

structure DeduplicationResult where
  unique_organizations : List Org
  duplicates_removed : ℕ
  confidence_scores : List (String × ℚ)
deriving DecidableEq

/-- `Deduplicator.deduplicate_organizations`. -/
def deduplicateOrganizations (threshold : ℚ) (orgs : List Org) :
    DeduplicationResult :=
  if orgs.isEmpty then ⟨[], 0, []⟩
  else
    let dups := findDuplicates threshold orgs
    let st := dups.foldl (dedupStep orgs) (Finset.range orgs.length, [])
    let unique := ((List.range orgs.length).filter (· ∈ st.1)).map
      (fun i => orgs.getD i default)
    ⟨unique, orgs.length - unique.length, st.2⟩

/-!
## Evidence and the three segment scorers

An evidence dict is modelled by the fields the scorers read, with the derived
keys the corporate/providers scorers write back as `Option`s (absent =
`none`).  Scorers that mutate their argument are modelled by returning the
updated evidence alongside the `ScoreResult`.
-/

structure Evidence where
  full_text : String
  evidence_url : String
  provider_org : Bool
  ehr_activity : Bool
  vilt_present : Bool
  training_program : Bool
  large_scale : Bool
  structured_learning : Bool
  external_scope : Bool
  corporate_focus : Bool
  virtual_capability : Bool
  academy_name : Option String
  academy_url : Option String
  vilt_sessions_90d : Option Nat
  vilt_schedule_url : Option String
  accreditations : Option String
  instructor_bench : Option Nat
deriving DecidableEq

/-- Evidence with only boolean flags set (all free text empty, no derived
keys), for concrete test inputs. -/
def flagsEvidence (po ehr vilt tp ls sl es cf vc : Bool) : Evidence :=
  ⟨"", "", po, ehr, vilt, tp, ls, sl, es, cf, vc, none, none, none, none, none, none⟩

structure ScoreResult where
  score : ℕ
  tier : String
  missing : List String
deriving DecidableEq

/-- `any(term in text for term in terms)`. -/
def anyContains (terms : List String) (l : List Char) : Bool :=
  terms.any (fun t => pyContains t.data l)

/-- The `must_ok` expression of `score_healthcare` as implemented (the
"TEMPORARY: Relaxed requirements" variant): only one of the two key
indicators is required. -/
def healthcareMustOk (evidence : Evidence) : Bool :=
  evidence.ehr_activity || evidence.vilt_present

/-- Modelled from the spec: the healthcare MUST gate as the spec states it
("both `ehr_activity` AND `vilt_present` must be true"), which is also the
out-commented original `must_ok` of `score_healthcare`. -/
def specHealthcareMustGate (evidence : Evidence) : Bool :=
  evidence.ehr_activity && evidence.vilt_present

/-- `score_healthcare` (src/src/scoring/healthcare.py). -/
def scoreHealthcare (evidence : Evidence) : ScoreResult :=
  let s1 := if evidence.provider_org then 5 else 0
  let s2 := if evidence.ehr_activity then s1 + 40 else s1
  let m2 : List String := if evidence.ehr_activity then [] else ["ehr_activity"]
  let s3 := if evidence.vilt_present then s2 + 30 else s2
  let m3 := if evidence.vilt_present then m2 else m2 ++ ["vilt_present"]
  let s4 := if evidence.training_program then s3 + 15 else s3
  let s5 := if evidence.large_scale then s4 + 5 else s4
  let tier :=
    if healthcareMustOk evidence ∧ 60 ≤ s5 then "Confirmed"
    else if 40 ≤ s5 then "Probable"
    else "Needs Confirmation"
  ⟨s5, tier, m3⟩

/-!
### Free-text extraction helpers (providers / corporate)

The regular expressions used by the extractors all have the shape
"literal words / digit runs / whitespace runs with disjoint character
classes", so maximal-munch scanning is faithful to the backtracking regex
semantics.
-/

/-- Match one-or-more whitespace (`\s+`), returning the rest. -/
def eatSpaces1 : List Char → Option (List Char)
  | [] => none
  | c :: t => if pySpace c then some (t.dropWhile pySpace) else none

/-- Match a literal, returning the rest. -/
def eatLit (w : String) (l : List Char) : Option (List Char) :=
  if w.data.isPrefixOf l then some (l.drop w.data.length) else none

/-- Match the first of several literal alternatives, returning the rest. -/
def eatAlt (ws : List String) (l : List Char) : Option (List Char) :=
  match ws with
  | [] => none
  | w :: rest =>
    match eatLit w l with
    | some r => some r
    | none => eatAlt rest l

/-- Value of a digit run (`int` of a `\d+` group). -/
def natOfDigits (run : List Char) : ℕ :=
  run.foldl (fun n c => n * 10 + (c.toNat - '0'.toNat)) 0

/-- `re.findall(r'(\d+)…', text)` for a pattern starting with a `(\d+)` group:
collect the value of every maximal digit run whose following text satisfies
`tailOk` (the rest of the pattern contains no digits, so non-overlapping
scanning never splits a later digit run). -/
def scanDigitMatches (tailOk : List Char → Bool) : Nat → List Char → List ℕ
  | _, [] => []
  | skip + 1, _ :: t => scanDigitMatches tailOk skip t
  | 0, c :: t =>
    if c.isDigit then
      let run := c :: t.takeWhile Char.isDigit
      if tailOk (t.dropWhile Char.isDigit) then
        natOfDigits run :: scanDigitMatches tailOk (run.length - 1) t
      else scanDigitMatches tailOk (run.length - 1) t
    else scanDigitMatches tailOk 0 t

/-- Tail of `r'(\d+)\s+(?:live|virtual|online)\s+sessions?'`. -/
def sessionsTail1 (l : List Char) : Bool :=
  (eatSpaces1 l >>= eatAlt ["live", "virtual", "online"] >>= eatSpaces1 >>=
    eatLit "session").isSome

/-- Tail of `r'(\d+)\s+sessions?\s+(?:per|each|every)\s+(?:month|week)'`. -/
def sessionsTail2 (l : List Char) : Bool :=
  (eatSpaces1 l >>= eatLit "session" >>=
    (fun r => some (match r with | 's' :: t => t | _ => r)) >>= eatSpaces1 >>=
    eatAlt ["per", "each", "every"] >>= eatSpaces1 >>=
    eatAlt ["month", "week"]).isSome

/-- Tail of `r'(\d+)\s+upcoming\s+(?:sessions?|courses?|classes?)'`. -/
def sessionsTail3 (l : List Char) : Bool :=
  (eatSpaces1 l >>= eatLit "upcoming" >>= eatSpaces1 >>=
    eatAlt ["session", "course", "classe"]).isSome

/-- Tail of `r'(\d+)\s+scheduled\s+(?:sessions?|courses?|classes?)'`. -/
def sessionsTail4 (l : List Char) : Bool :=
  (eatSpaces1 l >>= eatLit "scheduled" >>= eatSpaces1 >>=
    eatAlt ["session", "course", "classe"]).isSome

/-- `count_vilt_sessions` (providers.py): max over all matches of the four
session patterns on the lowercased text. -/
def countViltSessions (text : String) : ℕ :=
  let tl := pyLower text.data
  ([scanDigitMatches sessionsTail1 0 tl, scanDigitMatches sessionsTail2 0 tl,
    scanDigitMatches sessionsTail3 0 tl,
    scanDigitMatches sessionsTail4 0 tl].flatten).foldl Nat.max 0

/-- Match `https?://`, returning the rest. -/
def eatScheme (l : List Char) : Option (List Char) :=
  match eatLit "https://" l with
  | some r => some r
  | none => eatLit "http://" l

/-- Leftmost match of a URL pattern `https?://…`: at the first position where
`https?://` matches and `cond` holds of the non-space segment after the
scheme, return the whole non-space run from the match start (the trailing
greedy `[^\s]*`/`[^\s]+` of every URL pattern extends the match to the end of
that run). -/
def findUrlMatch (cond : List Char → Bool) : List Char → Option (List Char)
  | [] => none
  | c :: t =>
    match eatScheme (c :: t) with
    | some rest =>
      if cond (rest.takeWhile (fun x => !pySpace x)) then
        some ((c :: t).takeWhile (fun x => !pySpace x))
      else findUrlMatch cond t
    | none => findUrlMatch cond t

/-- `[^\s]+needle[^\s]*` after the scheme: `needle` occurs in the segment at
offset at least 1. -/
def segContainsAfterOne (needles : List String) (seg : List Char) : Bool :=
  needles.any (fun n => pyContains n.data (seg.drop 1))

/-- `extract_vilt_schedule_url` (providers.py). -/
def extractViltScheduleUrl (text : String) (base_url : String) : String :=
  let tl := pyLower text.data
  match findUrlMatch
      (segContainsAfterOne ["schedule", "calendar", "courses", "training"]) tl with
  | some m => ⟨m⟩
  | none =>
    match findUrlMatch
        (segContainsAfterOne ["/events", "/sessions", "/classes"]) tl with
    | some m => ⟨m⟩
    | none =>
      if anyContains ["upcoming sessions", "schedule", "calendar", "register"] tl then
        base_url
      else ""

/-- Case-insensitive literal prefix test. -/
def ciPrefix (w : String) (l : List Char) : Bool :=
  (pyLower w.data).isPrefixOf (pyLower l)

/-- `re.findall` with `re.IGNORECASE` for an alternation of literals:
collect the matched spans of the original text, scanning left to right,
non-overlapping, first alternative wins at each position. -/
def scanCiMatches (alts : List String) : Nat → List Char → List (List Char)
  | _, [] => []
  | skip + 1, _ :: t => scanCiMatches alts skip t
  | 0, c :: t =>
    match alts.find? (fun w => ciPrefix w (c :: t)) with
    | some w => (c :: t).take w.data.length ::
        scanCiMatches alts (w.data.length - 1) t
    | none => scanCiMatches alts 0 t

/-- `re.findall(r'(ISO \d+)', text, re.IGNORECASE)`: the only accreditation
pattern that is not a literal alternation. -/
def scanIsoMatches : Nat → List Char → List (List Char)
  | _, [] => []
  | skip + 1, _ :: t => scanIsoMatches skip t
  | 0, c :: t =>
    if ciPrefix "iso " (c :: t) && (((c :: t).drop 4).headD ' ').isDigit then
      let digits := ((c :: t).drop 4).takeWhile Char.isDigit
      ((c :: t).take (4 + digits.length)) ::
        scanIsoMatches (4 + digits.length - 1) t
    else scanIsoMatches 0 t

/-- Join a list of strings with `"; "`. -/
def joinSemi : List (List Char) → List Char
  | [] => []
  | [x] => x
  | x :: y :: t => x ++ ("; ".data ++ joinSemi (y :: t))

/-- `extract_accreditations` (providers.py): all case-insensitive matches of
the accreditation patterns, in pattern order, joined with `"; "`. -/
def extractAccreditations (text : String) : String :=
  let l := text.data
  let found :=
    scanCiMatches ["PMI", "Project Management Institute"] 0 l ++
    scanCiMatches ["NEBOSH"] 0 l ++ scanCiMatches ["CompTIA"] 0 l ++
    scanCiMatches ["SHRM"] 0 l ++ scanCiMatches ["ATD"] 0 l ++
    scanCiMatches ["IACET"] 0 l ++ scanCiMatches ["Six Sigma"] 0 l ++
    scanCiMatches ["PMP"] 0 l ++ scanCiMatches ["CISSP"] 0 l ++
    scanIsoMatches 0 l
  ⟨joinSemi found⟩

/-- Tail of `r'(\d+)\s+(?:instructors?|trainers?|facilitators?)'`. -/
def benchTail1 (l : List Char) : Bool :=
  (eatSpaces1 l >>= eatAlt ["instructor", "trainer", "facilitator"]).isSome

/-- Tail of `r'(\d+)\s+(?:expert|certified|experienced)\s+(?:instructors?|trainers?)'`. -/
def benchTail3 (l : List Char) : Bool :=
  (eatSpaces1 l >>= eatAlt ["expert", "certified", "experienced"] >>=
    eatSpaces1 >>= eatAlt ["instructor", "trainer"]).isSome

/-- `re.findall(r'(?:team|staff)\s+of\s+(\d+)', ·)`: digit groups preceded by
`team of` / `staff of`.  A successful match span (`team`/`staff`, whitespace,
`of`, whitespace, digits) contains no position at which `team` or `staff`
starts again, so resuming the scan one character later is equivalent to
resuming after the match as `re.findall` does. -/
def scanTeamOfMatches : List Char → List ℕ
  | [] => []
  | c :: t =>
    match eatAlt ["team", "staff"] (c :: t) >>= eatSpaces1 >>= eatLit "of" >>=
        eatSpaces1 with
    | some r =>
      if (r.headD ' ').isDigit then
        natOfDigits (r.takeWhile Char.isDigit) :: scanTeamOfMatches t
      else scanTeamOfMatches t
    | none => scanTeamOfMatches t

/-- `count_instructor_bench` (providers.py). -/
def countInstructorBench (text : String) : ℕ :=
  let tl := pyLower text.data
  let max_count :=
    ([scanDigitMatches benchTail1 0 tl, scanTeamOfMatches tl,
      scanDigitMatches benchTail3 0 tl].flatten).foldl Nat.max 0
  if max_count = 0 then
    if anyContains ["large team", "extensive", "numerous"] tl then 10
    else if anyContains ["team of experts", "experienced staff"] tl then 5
    else 0
  else max_count

/-- The red-flag list of `has_red_flags` (providers.py). -/
def redFlags : List String :=
  ["mooc", "coursera", "udemy", "edx", "khan academy",
   "k-12", "high school", "elementary", "sat prep", "gmat prep",
   "self-paced only", "no live instruction", "recorded only",
   "micro bootcamp", "1-day course", "2-hour session",
   "consulting services", "advisory only", "strategy consulting"]

/-- `has_red_flags` (providers.py); the `url` argument is accepted and unused
exactly as in the source. -/
def hasRedFlags (text : String) (_url : String) : Bool :=
  anyContains redFlags (pyLower text.data)

/-- The `must_ok` expression of `score_providers`: all four MUST criteria,
computed from the same derived metrics as the scorer. -/
def providersMustOk (evidence : Evidence) : Bool :=
  evidence.corporate_focus && evidence.virtual_capability &&
    (extractViltScheduleUrl evidence.full_text evidence.evidence_url ≠ "" &&
      5 ≤ countViltSessions evidence.full_text) &&
    5 ≤ countInstructorBench evidence.full_text

/-- `score_providers` (providers.py).  The dict mutation (writing
`vilt_sessions_90d`, `vilt_schedule_url`, `accreditations`,
`instructor_bench` back into the evidence) is modelled by returning the
updated evidence; the red-flag branch returns before any of those writes. -/
def scoreProviders (evidence : Evidence) : ScoreResult × Evidence :=
  let text := evidence.full_text
  let url := evidence.evidence_url
  if hasRedFlags text url then (⟨0, "Excluded", ["red_flags_present"]⟩, evidence)
  else
    let sessions := countViltSessions text
    let schedUrl := extractViltScheduleUrl text url
    let accr := extractAccreditations text
    let bench := countInstructorBench text
    let evidence' := { evidence with
      vilt_sessions_90d := some sessions, vilt_schedule_url := some schedUrl,
      accreditations := some accr, instructor_bench := some bench }
    let s1 := if evidence.corporate_focus then 20 else 0
    let m1 : List String := if evidence.corporate_focus then [] else ["b2b_focus"]
    let s2 := if evidence.virtual_capability then s1 + 25 else s1
    let m2 := if evidence.virtual_capability then m1 else m1 ++ ["vilt_core_offering"]
    let calOk := schedUrl ≠ "" && 5 ≤ sessions
    let s3 := if calOk then s2 + 20 else s2
    let m3 := if calOk then m2 else m2 ++ ["public_calendar_5plus"]
    let s4 := if 5 ≤ bench then s3 + 15 else s3
    let m4 := if 5 ≤ bench then m3 else m3 ++ ["instructor_bench_5plus"]
    let s5 := if accr ≠ "" then s4 + 10 else s4
    let s6 := if anyContains ["enterprise clients", "fortune", "case studies",
        "success stories"] (pyLower text.data) then s5 + 10 else s5
    let s7 := if anyContains ["global", "international", "worldwide", "na and emea"]
        (pyLower text.data) then s6 + 5 else s6
    let tier :=
      if providersMustOk evidence ∧ 90 ≤ s7 then "Confirmed"
      else if 70 ≤ s7 then "Probable"
      else "Needs Confirmation"
    (⟨s7, tier, m4⟩, evidence')

/-!
### Corporate academy extraction (corporate.py)
-/

/-- Python `str.title()` for the ASCII fragment: a letter is upper-cased when
the previous character is not a letter, lower-cased otherwise. -/
def pyTitle (l : List Char) : List Char :=
  (l.foldl
    (fun (st : List Char × Bool) c =>
      ((if c.isAlpha then (if st.2 then c.toLower else c.toUpper) else c) :: st.1,
        c.isAlpha))
    ([], false)).1.reverse

/-- Scan for the leftmost `(\w+)\s+…` match: the first maximal word run that
is followed by whitespace and a tail accepted by `tailOk`; the captured group
is the whole run.  (A match can only start at a run start: later positions
inside a run share the same tail and fail or succeed with it, and an earlier
start position always matches first.) -/
def findGroupRun (tailOk : List Char → Bool) : Nat → List Char → Option (List Char)
  | _, [] => none
  | skip + 1, _ :: t => findGroupRun tailOk skip t
  | 0, c :: t =>
    if wordChar c then
      let run := c :: t.takeWhile wordChar
      if (eatSpaces1 (t.dropWhile wordChar)).elim false tailOk then some run
      else findGroupRun tailOk (run.length - 1) t
    else findGroupRun tailOk 0 t

/-- Tail of `r'(\w+)\s+(?:corporate\s+)?academy'` (after the whitespace). -/
def academyTail1 (l : List Char) : Bool :=
  (eatLit "corporate" l >>= eatSpaces1 >>= eatLit "academy").isSome ||
    ("academy".data.isPrefixOf l)

/-- Tail of `r'(\w+)\s+university'`. -/
def academyTail2 (l : List Char) : Bool :=
  "university".data.isPrefixOf l

/-- Tails of the three `(\w+)\s+<word>\s+center` patterns. -/
def academyCenterTail (w : String) (l : List Char) : Bool :=
  (eatLit w l >>= eatSpaces1 >>= eatLit "center").isSome

/-- `urlparse(url).hostname` (urllib): scheme split, `//`-netloc, userinfo
and port removal, lower-casing; `none` when there is no netloc or the host is
empty. -/
def pyHostname (url : String) : Option (List Char) :=
  let l := url.data
  let pre := l.takeWhile (fun c => c ≠ ':')
  let rest :=
    if pre.length < l.length ∧ pre ≠ [] ∧ (pre.headD ' ').isAlpha ∧
        pre.all (fun c => c.isAlphanum || c == '+' || c == '-' || c == '.') then
      l.drop (pre.length + 1)
    else l
  if "//".data.isPrefixOf rest then
    let netloc := (rest.drop 2).takeWhile (fun c => c ≠ '/' ∧ c ≠ '?' ∧ c ≠ '#')
    let hostinfo := (netloc.reverse.takeWhile (fun c => c ≠ '@')).reverse
    let host :=
      match hostinfo with
      | '[' :: _ => (hostinfo.takeWhile (fun c => c ≠ ']')) ++ [']']
      | _ => hostinfo.takeWhile (fun c => c ≠ ':')
    if host = [] then none else some (pyLower host)
  else none

/-- Python `str.split('.')` (keeps empty pieces). -/
def pySplitDot : List Char → List (List Char)
  | [] => [[]]
  | c :: t =>
    if c = '.' then [] :: pySplitDot t
    else
      match pySplitDot t with
      | p :: ps => (c :: p) :: ps
      | [] => [[c]]

/-- `extract_academy_name` (corporate.py). -/
def extractAcademyName (text : String) (url : String) : String :=
  let tl := pyLower text.data
  let found :=
    match findGroupRun academyTail1 0 tl with
    | some r => some r
    | none =>
      match findGroupRun academyTail2 0 tl with
      | some r => some r
      | none =>
        match findGroupRun (academyCenterTail "learning") 0 tl with
        | some r => some r
        | none =>
          match findGroupRun (academyCenterTail "training") 0 tl with
          | some r => some r
          | none => findGroupRun (academyCenterTail "development") 0 tl
  match found with
  | some run => ⟨pyTitle run ++ " Academy".data⟩
  | none =>
    match pyHostname url with
    | some h =>
      if pyContains "academy".data h then
        match (pySplitDot h).find? (fun part =>
            !(["www", "academy", "com", "org"].map String.data).contains part &&
              2 < part.length) with
        | some part => ⟨pyTitle part ++ " Academy".data⟩
        | none => ""
      else ""
    | none => ""

/-- `extract_academy_url` (corporate.py). -/
def extractAcademyUrl (text : String) (base_url : String) : String :=
  let tl := pyLower text.data
  match findUrlMatch (segContainsAfterOne ["academy"]) tl with
  | some m => ⟨m⟩
  | none =>
    match findUrlMatch (fun seg => "academy.".data.isPrefixOf seg ∧
        8 < seg.length) tl with
    | some m => ⟨m⟩
    | none =>
      match findUrlMatch (segContainsAfterOne ["/academy"]) tl with
      | some m => ⟨m⟩
      | none =>
        match findUrlMatch (segContainsAfterOne ["university"]) tl with
        | some m => ⟨m⟩
        | none =>
          match pyHostname base_url with
          | some h =>
            if pyContains "academy".data h || pyContains "university".data h then
              base_url
            else ""
          | none => ""

/-- The `must_ok` expression of `score_corporate`: the three MUST flags plus a
non-empty extracted academy name. -/
def corporateMustOk (evidence : Evidence) : Bool :=
  evidence.training_program && evidence.large_scale && evidence.vilt_present &&
    extractAcademyName evidence.full_text evidence.evidence_url ≠ ""

/-- `score_corporate` (corporate.py), with the `academy_name` / `academy_url`
write-backs modelled by the returned evidence. -/
def scoreCorporate (evidence : Evidence) : ScoreResult × Evidence :=
  let text := evidence.full_text
  let url := evidence.evidence_url
  let academyName := extractAcademyName text url
  let academyUrl := extractAcademyUrl text url
  let evidence' := { evidence with
    academy_name := some academyName, academy_url := some academyUrl }
  let named := evidence.training_program && academyName ≠ ""
  let s1 := if named then 50 else 0
  let m1 : List String := if named then [] else ["named_academy"]
  let s2 := if evidence.large_scale then s1 + 10 else s1
  let m2 := if evidence.large_scale then m1 else m1 ++ ["size_requirement"]
  let s3 := if evidence.structured_learning then s2 + 15 else s2
  let s4 := if evidence.vilt_present then s3 + 15 else s3
  let m4 := if evidence.vilt_present then m2 else m2 ++ ["vilt_modality"]
  let s5 := if anyContains ["top 125", "clo", "atd", "award", "recognition"]
      (pyLower text.data) then s4 + 10 else s4
  let s6 := if evidence.external_scope then s5 + 5 else s5
  let tier :=
    if corporateMustOk evidence ∧ 90 ≤ s6 then "Confirmed"
    else if 70 ≤ s6 then "Probable"
    else "Needs Confirmation"
  (⟨s6, tier, m4⟩, evidence')

/-!
## Claim C1: the healthcare tier ladder
-/

/-- C1, counterexample.  The claim says the top tier is assigned exactly when
both `ehr_activity` and `vilt_present` hold and the score is ≥ 90, `"Tier
2"`/`"Probable"` when the score is ≥ 70, otherwise the third tier.  On
evidence with `ehr_activity` true but `vilt_present` false and score 65 the
code nevertheless returns the top tier `"Confirmed"`. -/
theorem healthcare_tier_counterexample :
    scoreHealthcare ⟨"", "", true, true, false, true, true, false, false,
        false, false, none, none, none, none, none, none⟩ =
      ⟨65, "Confirmed", ["vilt_present"]⟩ ∧
    specHealthcareMustGate ⟨"", "", true, true, false, true, true, false,
        false, false, false, none, none, none, none, none, none⟩ = false ∧
    ¬(90 : ℕ) ≤ 65 ∧ ¬(70 : ℕ) ≤ 65 := by
  decide

/-- C1, as amended: `score_healthcare` as implemented returns `"Confirmed"`
exactly when at least one of `ehr_activity`/`vilt_present` holds and the
score is ≥ 60, `"Probable"` when that fails and the score is ≥ 40, and
`"Needs Confirmation"` otherwise. -/
theorem healthcare_tier_characterization (e : Evidence) :
    ((scoreHealthcare e).tier = "Confirmed" ↔
      healthcareMustOk e = true ∧ 60 ≤ (scoreHealthcare e).score) ∧
    ((scoreHealthcare e).tier = "Probable" ↔
      ¬(healthcareMustOk e = true ∧ 60 ≤ (scoreHealthcare e).score) ∧
        40 ≤ (scoreHealthcare e).score) ∧
    ((scoreHealthcare e).tier = "Needs Confirmation" ↔
      ¬(healthcareMustOk e = true ∧ 60 ≤ (scoreHealthcare e).score) ∧
        ¬40 ≤ (scoreHealthcare e).score) := by
  obtain ⟨ft, eu, po, ehr, vi, tp, ls, sl, es, cf, vc, an, au, vs, su, ac, ib⟩ := e
  cases po <;> cases ehr <;> cases vi <;> cases tp <;> cases ls <;>
    simp [scoreHealthcare, healthcareMustOk]

/-!
## Claim C2: MUST-gate dominance
-/

/-- C2, counterexample.  With the MUST gate as the spec defines it for the
healthcare segment (both flags), the gate fails on this evidence and yet the
top tier is returned. -/
theorem must_gate_dominance_counterexample :
    specHealthcareMustGate ⟨"", "", false, true, false, true, true, false,
        false, false, false, none, none, none, none, none, none⟩ = false ∧
    (scoreHealthcare ⟨"", "", false, true, false, true, true, false, false,
        false, false, none, none, none, none, none, none⟩).tier =
      "Confirmed" := by
  decide

/-- Both branches of an `ite` differ from `x`, hence so does the `ite`. -/
theorem ite_ne_right {α : Type} {c : Prop} [Decidable c] {a b x : α}
    (h1 : a ≠ x) (h2 : b ≠ x) : (if c then a else b) ≠ x := by
  split <;> assumption

/-- C2, as amended: with the MUST gates as implemented — `ehr_activity` OR
`vilt_present` for healthcare, the three MUST flags plus a named academy for
corporate, the four MUST criteria for providers — a failed gate never yields
the top tier `"Confirmed"`. -/
theorem must_gate_dominance_as_implemented (e : Evidence) :
    (healthcareMustOk e = false → (scoreHealthcare e).tier ≠ "Confirmed") ∧
    (corporateMustOk e = false → (scoreCorporate e).1.tier ≠ "Confirmed") ∧
    (providersMustOk e = false → (scoreProviders e).1.tier ≠ "Confirmed") := by
  refine ⟨fun h => ?_, fun h => ?_, fun h => ?_⟩
  · simp only [scoreHealthcare, h, Bool.false_eq_true, false_and, if_false]
    exact ite_ne_right (by decide) (by decide)
  · simp only [scoreCorporate, h, Bool.false_eq_true, false_and, if_false]
    exact ite_ne_right (by decide) (by decide)
  · cases hr : hasRedFlags e.full_text e.evidence_url with
    | true => simp [scoreProviders, hr]
    | false =>
      simp only [scoreProviders, hr, Bool.false_eq_true, if_false, h, false_and]
      exact ite_ne_right (by decide) (by decide)

/-- C2, witness. -/
theorem must_gate_dominance_witness :
    (scoreHealthcare ⟨"", "", true, false, false, true, true, false, false,
        false, false, none, none, none, none, none, none⟩).tier ≠
      "Confirmed" ∧
    (scoreCorporate ⟨"", "", false, false, true, true, true, false, false,
        false, false, none, none, none, none, none, none⟩).1.tier ≠
      "Confirmed" ∧
    (scoreProviders ⟨"", "", false, false, false, false, false, false, false,
        true, true, none, none, none, none, none, none⟩).1.tier ≠
      "Confirmed" :=
  ⟨(must_gate_dominance_as_implemented _).1 (by decide),
   (must_gate_dominance_as_implemented _).2.1 (by decide),
   (must_gate_dominance_as_implemented _).2.2 (by decide)⟩

/-!
## Claim C7: red-flag short circuit
-/

/-- C7: whenever the free text contains a red-flag phrase (so that
`has_red_flags` fires), `score_providers` returns exactly
`ScoreResult(score=0, tier="Excluded", missing=["red_flags_present"])`,
regardless of every other evidence field. -/
theorem providers_red_flag_short_circuit (e : Evidence)
    (h : hasRedFlags e.full_text e.evidence_url = true) :
    (scoreProviders e).1 = ⟨0, "Excluded", ["red_flags_present"]⟩ := by
  simp [scoreProviders, h]

/-- C7, witness: evidence whose text contains `"self-paced only"` and whose
flags would otherwise all score. -/
theorem providers_red_flag_short_circuit_witness :
    hasRedFlags "great but self-paced only here" "u" = true ∧
    (scoreProviders ⟨"great but self-paced only here", "u", true, true, true,
        true, true, true, true, true, true, none, none, none, none, none,
        none⟩).1 = ⟨0, "Excluded", ["red_flags_present"]⟩ :=
  ⟨by decide, providers_red_flag_short_circuit _ (by decide)⟩

/-!
## Claim C10: the red-flag branch leaves the evidence dict untouched
-/

/-- C10: when the red-flag check fires, `score_providers` returns before any
of the derived keys (`vilt_sessions_90d`, `vilt_schedule_url`,
`accreditations`, `instructor_bench`) is written: the returned evidence is
exactly the input evidence. -/
theorem providers_red_flag_no_mutation (e : Evidence)
    (h : hasRedFlags e.full_text e.evidence_url = true) :
    (scoreProviders e).2 = e := by
  simp [scoreProviders, h]

/-- C10, witness. -/
theorem providers_red_flag_no_mutation_witness :
    hasRedFlags "all recorded only content" "x" = true ∧
    (scoreProviders ⟨"all recorded only content", "x", false, false, false,
        false, false, false, false, true, true, none, none, none, none, none,
        none⟩).2 =
      ⟨"all recorded only content", "x", false, false, false, false, false,
        false, false, true, true, none, none, none, none, none, none⟩ :=
  ⟨by decide, providers_red_flag_no_mutation _ (by decide)⟩

/-!
## Claim C6: empty normalized names
-/

/-- C6, counterexample.  The Deduplicator checks the *raw* names, not the
normalized ones: `"inc"` and `"llc"` both normalize to the empty string, yet
`calculate_similarity` returns `1.0`, not `0.0`. -/
theorem empty_normalized_similarity_counterexample :
    dedupNormalize "inc" = "" ∧ dedupNormalize "llc" = "" ∧
    dedupCalculateSimilarity "inc" "llc" = 1 := by
  refine ⟨by decide, by decide, ?_⟩
  decide

/-- C6, as amended: the evaluator's `calculate_similarity` does return `0.0`
whenever either normalized name is empty; the Deduplicator's variant instead
returns `0.0` on empty raw input but `1.0` when two non-empty names both
normalize to the empty string. -/
theorem eval_similarity_empty_normalized_zero (name1 name2 : String)
    (h : evalNormalize name1 = "" ∨ evalNormalize name2 = "") :
    evalCalculateSimilarity name1 name2 = 0 := by
  have h' : (evalNormalize name1).data = [] ∨ (evalNormalize name2).data = [] := by
    rcases h with h | h <;> [left; right] <;> rw [h]
  simp [evalCalculateSimilarity, h']

/-- C6, witness. -/
theorem eval_similarity_empty_normalized_zero_witness :
    evalNormalize "..." = "" ∧ evalCalculateSimilarity "..." "Acme" = 0 :=
  ⟨by decide, eval_similarity_empty_normalized_zero "..." "Acme" (Or.inl (by decide))⟩

/-!
## Claim C5: threshold monotonicity of deduplication
-/

set_option maxRecDepth 16000 in
unseal Rat.add Rat.mul Rat.inv in
/-- C5, counterexample.  On four fixed candidates, raising the similarity
threshold from `0.35` to `0.45` *increases* `duplicates_removed` from 1 to 2:
at the lower threshold the early weak pair `(0,1)` evicts the hub candidate 1
and thereby blocks the two pairs `(1,2)` and `(1,3)`, which at the higher
threshold are the only pairs and evict two candidates. -/
theorem threshold_monotonicity_counterexample :
    (mkRat 35 100 ≤ mkRat 45 100) ∧
    (deduplicateOrganizations (mkRat 35 100)
      [mkOrg "aaaab", mkOrg "aaaa bbbb", mkOrg "aaaa cccc",
       mkOrg "dddd bbbb"]).duplicates_removed = 1 ∧
    (deduplicateOrganizations (mkRat 45 100)
      [mkOrg "aaaab", mkOrg "aaaa bbbb", mkOrg "aaaa cccc",
       mkOrg "dddd bbbb"]).duplicates_removed = 2 := by
  refine ⟨by decide, ?_, ?_⟩ <;> decide

/-- The length of a `filterMap` whose function is a guarded `some` is the
count of elements passing the guard. -/
theorem length_filterMap_guard {α β : Type} (l : List α) (p : α → Prop)
    [DecidablePred p] (f : α → β) :
    (l.filterMap (fun x => if p x then some (f x) else none)).length =
      l.countP (fun x => decide (p x)) := by
  induction l with
  | nil => rfl
  | cons a t ih =>
    by_cases h : p a <;> simp [List.filterMap_cons, List.countP_cons, h, ih]

/-- C5, as amended: raising the threshold never increases the number of
duplicate *pairs* found by `find_duplicates` (the greedy resolution of
`deduplicate_organizations` can nevertheless evict more candidates at a
higher threshold, as the counterexample shows). -/
theorem find_duplicates_threshold_monotone (orgs : List Org) (t1 t2 : ℚ)
    (h : t1 ≤ t2) :
    (findDuplicates t2 orgs).length ≤ (findDuplicates t1 orgs).length := by
  unfold findDuplicates
  rw [length_filterMap_guard, length_filterMap_guard]
  exact List.countP_mono_left (fun x _ hx => by
    simp only [decide_eq_true_eq] at hx ⊢
    exact le_trans h hx)

set_option maxRecDepth 16000 in
unseal Rat.add Rat.mul Rat.inv in
/-- C5, witness. -/
theorem find_duplicates_threshold_monotone_witness :
    (mkRat 35 100 ≤ mkRat 45 100) ∧
    (findDuplicates (mkRat 45 100)
        [mkOrg "aaaab", mkOrg "aaaa bbbb", mkOrg "aaaa cccc",
         mkOrg "dddd bbbb"]).length ≤
      (findDuplicates (mkRat 35 100)
        [mkOrg "aaaab", mkOrg "aaaa bbbb", mkOrg "aaaa cccc",
         mkOrg "dddd bbbb"]).length :=
  ⟨by decide,
   find_duplicates_threshold_monotone _ (mkRat 35 100) (mkRat 45 100) (by decide)⟩

/-!
## Claim C3: boosts never drop the similarity below the base ratio

Bounding `SequenceMatcher`: every matching block lies inside its window, so
the total match size is at most the length of either side and the ratio is at
most 1.
-/

/-- The dynamic program value is bounded by the distance to the window
start, on both sides. -/
theorem klen_le (a b : List Char) (alo blo : Nat) :
    ∀ i j, alo ≤ i → blo ≤ j →
      klen a b alo blo i j ≤ min (i + 1 - alo) (j + 1 - blo) := by
  intro i
  induction i with
  | zero =>
    intro j h1 h2
    rw [klen]
    split <;> omega
  | succ i' ih =>
    intro j hi hj
    match j with
    | 0 => rw [klen]; split <;> omega
    | j' + 1 =>
      rw [klen]
      split
      · split
        · rename_i hc
          have := ih j' hc.1 hc.2
          omega
        · rename_i hc
          simp only [not_and, not_le] at hc
          omega
      · omega

/-- Any invariant preserved by the step function holds of a `foldl`. -/
theorem foldl_preserve {α β : Type} (f : β → α → β) (P : β → Prop) :
    ∀ (l : List α) (init : β), P init →
      (∀ acc x, x ∈ l → P acc → P (f acc x)) → P (l.foldl f init) := by
  intro l
  induction l with
  | nil => intro init h0 _; exact h0
  | cons a t ih =>
    intro init h0 hstep
    exact ih (f init a) (hstep init a (List.mem_cons_self a t) h0)
      (fun acc x hx => hstep acc x (List.mem_cons_of_mem a hx))

/-- A non-trivial longest match lies inside its window. -/
theorem findLongestMatch_bounds (a b : List Char) (alo ahi blo bhi : Nat) :
    (findLongestMatch a b alo ahi blo bhi).2.2 ≠ 0 →
      alo ≤ (findLongestMatch a b alo ahi blo bhi).1 ∧
      (findLongestMatch a b alo ahi blo bhi).1 +
        (findLongestMatch a b alo ahi blo bhi).2.2 ≤ ahi ∧
      blo ≤ (findLongestMatch a b alo ahi blo bhi).2.1 ∧
      (findLongestMatch a b alo ahi blo bhi).2.1 +
        (findLongestMatch a b alo ahi blo bhi).2.2 ≤ bhi := by
  unfold findLongestMatch
  refine foldl_preserve _
    (fun (best : ℕ × ℕ × ℕ) => best.2.2 ≠ 0 →
      alo ≤ best.1 ∧ best.1 + best.2.2 ≤ ahi ∧ blo ≤ best.2.1 ∧
        best.2.1 + best.2.2 ≤ bhi) _ _ ?_ ?_
  · intro h; exact absurd rfl h
  · intro acc x hx hacc
    simp only [List.mem_flatMap, List.mem_map, List.mem_range'_1] at hx
    obtain ⟨i, hi, j, hj, rfl⟩ := hx
    dsimp only
    split
    · rename_i hk
      intro _
      dsimp only
      have hkb := klen_le a b alo blo i j hi.1 hj.1
      rw [Nat.le_min] at hkb
      have hi2 := hi.2
      have hj2 := hj.2
      have hk1 : 1 ≤ klen a b alo blo i j := by omega
      refine ⟨by omega, by omega, by omega, by omega⟩
    · exact hacc

/-- The total match size is bounded by both window widths. -/
theorem matchSumAux_le (a b : List Char) :
    ∀ fuel alo ahi blo bhi,
      matchSumAux a b fuel alo ahi blo bhi ≤ min (ahi - alo) (bhi - blo) := by
  intro fuel
  induction fuel with
  | zero => exact fun _ _ _ _ => Nat.zero_le _
  | succ n ih =>
    intro alo ahi blo bhi
    rw [matchSumAux]
    split
    · omega
    · rename_i hk
      have hb := findLongestMatch_bounds a b alo ahi blo bhi hk
      have h1 := ih alo (findLongestMatch a b alo ahi blo bhi).1 blo
        (findLongestMatch a b alo ahi blo bhi).2.1
      have h2 := ih ((findLongestMatch a b alo ahi blo bhi).1 +
          (findLongestMatch a b alo ahi blo bhi).2.2) ahi
        ((findLongestMatch a b alo ahi blo bhi).2.1 +
          (findLongestMatch a b alo ahi blo bhi).2.2) bhi
      simp only [le_min_iff] at h1 h2 ⊢
      omega

/-- `ratio()` never exceeds `1.0`. -/
theorem seqRatio_le_one (a b : List Char) : seqRatio a b ≤ 1 := by
  unfold seqRatio
  split
  · exact le_refl 1
  · rename_i hT
    rw [div_le_one (by positivity)]
    have hM : matchTotal a b ≤ min a.length b.length := by
      have := matchSumAux_le a b (a.length + b.length) 0 a.length 0 b.length
      simpa [matchTotal] using this
    have : 2 * matchTotal a b ≤ a.length + b.length := by omega
    exact_mod_cast this

/-- Python `max(a, b)` is at least `a`. -/
theorem le_pyMax_left (a b : ℚ) : a ≤ pyMax a b := by
  unfold pyMax
  split
  · rename_i h; exact le_of_lt h
  · exact le_refl a

set_option maxRecDepth 16000 in
unseal Rat.add Rat.mul Rat.inv in
/-- C3, counterexample.  The Deduplicator's `calculate_similarity` *averages*
the sequence ratio with the word-overlap ratio instead of taking a maximum:
on `"abc"`/`"abd"` the base ratio of the normalized names is `2/3`, but the
returned similarity is `1/3`. -/
theorem similarity_base_ratio_counterexample :
    dedupCalculateSimilarity "abc" "abd" <
      seqRatio (dedupNormalize "abc").data (dedupNormalize "abd").data := by
  decide

/-- C3, as amended: the *evaluator's* `calculate_similarity` only ever raises
the base sequence ratio of the two normalized names (its boosts are maxima);
the Deduplicator variant can fall below the base because it averages. -/
theorem eval_similarity_ge_base_ratio (name1 name2 : String)
    (h1 : evalNormalize name1 ≠ "") (h2 : evalNormalize name2 ≠ "") :
    seqRatio (evalNormalize name1).data (evalNormalize name2).data ≤
      evalCalculateSimilarity name1 name2 := by
  have h1' : ¬(evalNormalize name1).data = [] := fun h =>
    h1 (String.ext (by simpa using h))
  have h2' : ¬(evalNormalize name2).data = [] := fun h =>
    h2 (String.ext (by simpa using h))
  unfold evalCalculateSimilarity
  simp only [h1', h2', or_self, if_false, false_or]
  split
  · rename_i he
    rw [he]
    exact seqRatio_le_one _ _
  · have base :
        seqRatio (evalNormalize name1).data (evalNormalize name2).data ≤
        (if pyContains (evalNormalize name1).data (evalNormalize name2).data ||
            pyContains (evalNormalize name2).data (evalNormalize name1).data then
          pyMax (seqRatio (evalNormalize name1).data (evalNormalize name2).data)
            (mkRat 8 10)
        else seqRatio (evalNormalize name1).data (evalNormalize name2).data) := by
      split
      · exact le_pyMax_left _ _
      · exact le_refl _
    split
    · split
      · exact le_trans base (le_pyMax_left _ _)
      · exact base
    · exact base

/-- C3, witness. -/
theorem eval_similarity_ge_base_ratio_witness :
    evalNormalize "abc" ≠ "" ∧ evalNormalize "abd" ≠ "" ∧
    seqRatio (evalNormalize "abc").data (evalNormalize "abd").data ≤
      evalCalculateSimilarity "abc" "abd" :=
  ⟨by decide, by decide,
   eval_similarity_ge_base_ratio "abc" "abd" (by decide) (by decide)⟩

/-!
## Claim C8: symmetry of similarity

`SequenceMatcher.ratio` itself is not symmetric (its tie-breaking of
equally-long matching blocks follows the scan order of the first argument),
and both similarity implementations inherit the asymmetry.
-/

set_option maxRecDepth 16000 in
unseal Rat.add Rat.mul Rat.inv in
/-- C8, counterexample: on `"xxyywz"` and `"yyzxx"` both similarity
implementations give different values in the two argument orders (the
underlying ratio is `4/11` one way and `6/11` the other). -/
theorem similarity_symmetry_counterexample :
    dedupCalculateSimilarity "xxyywz" "yyzxx" ≠
      dedupCalculateSimilarity "yyzxx" "xxyywz" ∧
    evalCalculateSimilarity "xxyywz" "yyzxx" ≠
      evalCalculateSimilarity "yyzxx" "xxyywz" := by
  refine ⟨?_, ?_⟩ <;> decide

/-- C8, as amended: whenever the `SequenceMatcher` ratio happens to be
symmetric on the two normalized names, both similarity functions are
symmetric — every other ingredient (the emptiness and equality checks, the
containment test, the word-overlap boosts) is symmetric; only the base ratio
is not. -/
theorem similarity_symmetric_given_ratio_symmetric (a b : String)
    (hd : seqRatio (dedupNormalize a).data (dedupNormalize b).data =
      seqRatio (dedupNormalize b).data (dedupNormalize a).data)
    (he : seqRatio (evalNormalize a).data (evalNormalize b).data =
      seqRatio (evalNormalize b).data (evalNormalize a).data) :
    dedupCalculateSimilarity a b = dedupCalculateSimilarity b a ∧
    evalCalculateSimilarity a b = evalCalculateSimilarity b a := by
  constructor
  · unfold dedupCalculateSimilarity
    dsimp only
    by_cases h0 : a.data = [] ∨ b.data = []
    · rw [if_pos h0, if_pos (Or.symm h0)]
    · rw [if_neg h0, if_neg (fun hc => h0 (Or.symm hc))]
      by_cases h1 : dedupNormalize a = dedupNormalize b
      · rw [if_pos h1, if_pos h1.symm]
      · rw [if_neg h1, if_neg
          (show ¬(dedupNormalize b = dedupNormalize a) from fun hc => h1 hc.symm)]
        by_cases h2 : wordSet (dedupNormalize a) ≠ ∅ ∧ wordSet (dedupNormalize b) ≠ ∅
        · rw [if_pos h2, if_pos
            (show wordSet (dedupNormalize b) ≠ ∅ ∧ wordSet (dedupNormalize a) ≠ ∅ from
              ⟨h2.2, h2.1⟩), hd, Finset.inter_comm, Nat.max_comm]
        · rw [if_neg h2, if_neg
            (show ¬(wordSet (dedupNormalize b) ≠ ∅ ∧ wordSet (dedupNormalize a) ≠ ∅) from
              fun hc => h2 ⟨hc.2, hc.1⟩), hd]
  · unfold evalCalculateSimilarity
    dsimp only
    by_cases h0 : (evalNormalize a).data = [] ∨ (evalNormalize b).data = []
    · rw [if_pos h0, if_pos (Or.symm h0)]
    · rw [if_neg h0, if_neg
        (show ¬((evalNormalize b).data = [] ∨ (evalNormalize a).data = []) from
          fun hc => h0 (Or.symm hc))]
      by_cases h1 : evalNormalize a = evalNormalize b
      · rw [if_pos h1, if_pos h1.symm]
      · rw [if_neg h1, if_neg
          (show ¬(evalNormalize b = evalNormalize a) from fun hc => h1 hc.symm)]
        have hcont :
            (pyContains (evalNormalize a).data (evalNormalize b).data ||
              pyContains (evalNormalize b).data (evalNormalize a).data) =
            (pyContains (evalNormalize b).data (evalNormalize a).data ||
              pyContains (evalNormalize a).data (evalNormalize b).data) :=
          Bool.or_comm _ _
        rw [hcont, he, Finset.inter_comm, Nat.min_comm]
        by_cases h2 : wordSet (evalNormalize a) ≠ ∅ ∧ wordSet (evalNormalize b) ≠ ∅
        · rw [if_pos h2, if_pos
            (show wordSet (evalNormalize b) ≠ ∅ ∧ wordSet (evalNormalize a) ≠ ∅ from
              ⟨h2.2, h2.1⟩)]
        · rw [if_neg h2, if_neg
            (show ¬(wordSet (evalNormalize b) ≠ ∅ ∧ wordSet (evalNormalize a) ≠ ∅) from
              fun hc => h2 ⟨hc.2, hc.1⟩)]

set_option maxRecDepth 16000 in
unseal Rat.mul Rat.inv in
/-- C8, witness: on `"alpha"`/`"beta"` the ratio is symmetric (both
directions give `2/9`) and so are both similarity functions. -/
theorem similarity_symmetric_witness :
    dedupCalculateSimilarity "alpha" "beta" =
      dedupCalculateSimilarity "beta" "alpha" ∧
    evalCalculateSimilarity "alpha" "beta" =
      evalCalculateSimilarity "beta" "alpha" :=
  similarity_symmetric_given_ratio_symmetric "alpha" "beta"
    (by decide) (by decide)

/-!
## Claim C9: deduplication output is duplicate-free

The greedy resolution loop maintains the invariant that no processed pair has
both endpoints alive: when a pair is reached with both endpoints alive, one
of them is evicted, and the kept-set only ever shrinks afterwards.
-/

/-- One resolution step never enlarges the kept-set. -/
theorem dedupStep_keep_subset (orgs : List Org)
    (st : Finset ℕ × List (String × ℚ)) (d : ℕ × ℕ × ℚ) :
    (dedupStep orgs st d).1 ⊆ st.1 := by
  unfold dedupStep
  split
  · dsimp only
    split <;> exact Finset.erase_subset _ _
  · exact subset_rfl

/-- The whole resolution fold never enlarges the kept-set. -/
theorem foldl_dedupStep_subset (orgs : List Org) (l : List (ℕ × ℕ × ℚ)) :
    ∀ st, (l.foldl (dedupStep orgs) st).1 ⊆ st.1 := by
  induction l with
  | nil => intro st; exact subset_rfl
  | cons x t ih =>
    intro st
    exact (ih (dedupStep orgs st x)).trans (dedupStep_keep_subset orgs st x)

/-- After the fold, no processed pair has both of its indices kept. -/
theorem foldl_dedupStep_not_both (orgs : List Org) (l : List (ℕ × ℕ × ℚ)) :
    ∀ st d, d ∈ l →
      ¬(d.1 ∈ (l.foldl (dedupStep orgs) st).1 ∧
        d.2.1 ∈ (l.foldl (dedupStep orgs) st).1) := by
  induction l with
  | nil => intro st d hd; exact absurd hd (List.not_mem_nil d)
  | cons x t ih =>
    intro st d hd
    rw [List.foldl_cons]
    rcases List.mem_cons.mp hd with rfl | hdt
    · intro hboth
      have hsub := foldl_dedupStep_subset orgs t (dedupStep orgs st d)
      have hin : d.1 ∈ (dedupStep orgs st d).1 ∧ d.2.1 ∈ (dedupStep orgs st d).1 :=
        ⟨hsub hboth.1, hsub hboth.2⟩
      revert hin
      unfold dedupStep
      by_cases hb : d.1 ∈ st.1 ∧ d.2.1 ∈ st.1
      · rw [if_pos hb]
        dsimp only
        split
        · exact fun hin => Finset.not_mem_erase _ _ hin.2
        · exact fun hin => Finset.not_mem_erase _ _ hin.1
      · rw [if_neg hb]
        exact hb
    · exact ih (dedupStep orgs st x) d hdt

/-- Every above-threshold pair `i < j` of valid indices is listed by
`find_duplicates`. -/
theorem mem_findDuplicates (t : ℚ) (orgs : List Org) (i j : ℕ)
    (hij : i < j) (hj : j < orgs.length)
    (hs : t ≤ dedupCalculateSimilarity (orgs.getD i default).organization
      (orgs.getD j default).organization) :
    (i, j, dedupCalculateSimilarity (orgs.getD i default).organization
      (orgs.getD j default).organization) ∈ findDuplicates t orgs := by
  unfold findDuplicates
  rw [List.mem_filterMap]
  refine ⟨(i, j), ?_, ?_⟩
  · rw [List.mem_flatMap]
    refine ⟨i, List.mem_range.mpr (lt_trans hij hj), ?_⟩
    rw [List.mem_map]
    exact ⟨j, List.mem_range'_1.mpr ⟨hij, by omega⟩, rfl⟩
  · simp only [if_pos hs]

/-- Core of C9: any two survivors (in output order) are strictly below the
threshold. -/
theorem dedup_unique_pair_lt (t : ℚ) (orgs : List Org) :
    ∀ i j,
      i < (deduplicateOrganizations t orgs).unique_organizations.length →
      j < (deduplicateOrganizations t orgs).unique_organizations.length →
      i < j →
      dedupCalculateSimilarity
        (((deduplicateOrganizations t orgs).unique_organizations.getD i
          default).organization)
        (((deduplicateOrganizations t orgs).unique_organizations.getD j
          default).organization) < t := by
  by_cases horgs : orgs.isEmpty
  · intro i j hi _ _
    rw [deduplicateOrganizations, if_pos horgs] at hi
    exact absurd hi (by simp)
  · have hu : (deduplicateOrganizations t orgs).unique_organizations =
        ((List.range orgs.length).filter
          (· ∈ ((findDuplicates t orgs).foldl (dedupStep orgs)
            (Finset.range orgs.length, [])).1)).map
          (fun i => orgs.getD i default) := by
      rw [deduplicateOrganizations, if_neg horgs]
    intro i j hi hj hij
    rw [hu] at hi hj ⊢
    rw [List.length_map] at hi hj
    rw [List.getD_eq_getElem _ _ (by rw [List.length_map]; exact hi),
      List.getD_eq_getElem _ _ (by rw [List.length_map]; exact hj),
      List.getElem_map, List.getElem_map]
    set idxs := (List.range orgs.length).filter
      (· ∈ ((findDuplicates t orgs).foldl (dedupStep orgs)
        (Finset.range orgs.length, [])).1) with hidxs
    have hpw : idxs.Pairwise (· < ·) :=
      (List.pairwise_lt_range orgs.length).sublist (List.filter_sublist _)
    have hlt : idxs[i] < idxs[j] :=
      List.pairwise_iff_getElem.mp hpw i j hi hj hij
    have hmema := List.mem_filter.mp (List.getElem_mem hi)
    have hmemb := List.mem_filter.mp (List.getElem_mem hj)
    by_contra hge
    push_neg at hge
    exact foldl_dedupStep_not_both orgs (findDuplicates t orgs)
      (Finset.range orgs.length, [])
      (idxs[i], idxs[j], dedupCalculateSimilarity
        (orgs.getD idxs[i] default).organization
        (orgs.getD idxs[j] default).organization)
      (mem_findDuplicates t orgs idxs[i] idxs[j] hlt
        (List.mem_range.mp hmemb.1) hge)
      ⟨of_decide_eq_true hmema.2, of_decide_eq_true hmemb.2⟩

/-- If all ordered pairs of a candidate list are below the threshold,
`find_duplicates` is empty. -/
theorem findDuplicates_eq_nil (t : ℚ) (l : List Org)
    (h : ∀ i j, i < l.length → j < l.length → i < j →
      dedupCalculateSimilarity (l.getD i default).organization
        (l.getD j default).organization < t) :
    findDuplicates t l = [] := by
  unfold findDuplicates
  rw [List.filterMap_eq_nil_iff]
  intro ij hij
  rw [List.mem_flatMap] at hij
  obtain ⟨i, hi, hmap⟩ := hij
  rw [List.mem_map] at hmap
  obtain ⟨j, hj, rfl⟩ := hmap
  rw [List.mem_range] at hi
  rw [List.mem_range'_1] at hj
  have hlt := h i j (by omega) (by omega) (by omega)
  simp only [if_neg (not_le.mpr hlt)]

/-- A run of `deduplicate_organizations` that finds no duplicate pairs
removes nothing. -/
theorem dedup_removed_zero (t : ℚ) (l : List Org)
    (h : findDuplicates t l = []) :
    (deduplicateOrganizations t l).duplicates_removed = 0 := by
  by_cases hl : l.isEmpty
  · rw [deduplicateOrganizations, if_pos hl]
  · rw [deduplicateOrganizations, if_neg hl]
    simp only [h, List.foldl_nil]
    have hfilter : (List.range l.length).filter
        (· ∈ (((Finset.range l.length,
          ([] : List (String × ℚ))) : Finset ℕ × List (String × ℚ)).1)) =
        List.range l.length := by
      rw [List.filter_eq_self]
      intro x hx
      exact decide_eq_true (Finset.mem_range.mpr (List.mem_range.mp hx))
    rw [hfilter, List.length_map, List.length_range, Nat.sub_self]

/-- C9: after `deduplicate_organizations`, every ordered pair of distinct
survivors has similarity strictly below the threshold, and re-running
`deduplicate_organizations` on its own output removes nothing. -/
theorem dedup_survivors_below_threshold (t : ℚ) (orgs : List Org) :
    (∀ i j,
        i < (deduplicateOrganizations t orgs).unique_organizations.length →
        j < (deduplicateOrganizations t orgs).unique_organizations.length →
        i < j →
        dedupCalculateSimilarity
          (((deduplicateOrganizations t orgs).unique_organizations.getD i
            default).organization)
          (((deduplicateOrganizations t orgs).unique_organizations.getD j
            default).organization) < t) ∧
    (deduplicateOrganizations t
        (deduplicateOrganizations t orgs).unique_organizations).duplicates_removed
      = 0 :=
  ⟨dedup_unique_pair_lt t orgs,
   dedup_removed_zero t _ (findDuplicates_eq_nil t _ (dedup_unique_pair_lt t orgs))⟩

set_option maxRecDepth 16000 in
unseal Rat.add Rat.mul Rat.inv in
/-- C9, witness: two dissimilar candidates both survive and their similarity
is below the threshold; re-running removes nothing. -/
theorem dedup_survivors_below_threshold_witness :
    dedupCalculateSimilarity
      (((deduplicateOrganizations (mkRat 9 10)
          [mkOrg "alpha one", mkOrg "different beta"]).unique_organizations.getD 0
        default).organization)
      (((deduplicateOrganizations (mkRat 9 10)
          [mkOrg "alpha one", mkOrg "different beta"]).unique_organizations.getD 1
        default).organization) < mkRat 9 10 ∧
    (deduplicateOrganizations (mkRat 9 10)
        (deduplicateOrganizations (mkRat 9 10)
          [mkOrg "alpha one", mkOrg "different beta"]).unique_organizations).duplicates_removed
      = 0 :=
  ⟨(dedup_survivors_below_threshold (mkRat 9 10)
      [mkOrg "alpha one", mkOrg "different beta"]).1 0 1
      (by decide) (by decide) (by decide),
   (dedup_survivors_below_threshold (mkRat 9 10)
      [mkOrg "alpha one", mkOrg "different beta"]).2⟩

/-!
## C4: idempotence of name normalization

Analysis of `Deduplicator.normalize_organization_name`: one pass rewrites the
input to its lowercased word runs, minus the banned legal/healthcare words,
joined by single spaces (`dedupNormalizeL_closed`); a second pass fixes every
stage of the pipeline.  First, character-level lemmas.
-/

lemma space_not_word {c : Char} (h : pySpace c = true) : wordChar c = false := by
  simp only [pySpace, Bool.or_eq_true, beq_iff_eq] at h
  rcases h with ((((h | h) | h) | h) | h) | h <;> subst h <;> decide

lemma word_not_space {c : Char} (h : wordChar c = true) : pySpace c = false := by
  cases hps : pySpace c with
  | false => rfl
  | true => rw [space_not_word hps] at h; cases h

lemma toLower_notUpper (c : Char) :
    ¬(c.toLower.toNat ≥ 65 ∧ c.toLower.toNat ≤ 90) := by
  simp only [Char.toLower]
  by_cases h : c.toNat ≥ 65 ∧ c.toNat ≤ 90
  · rw [if_pos h]
    have hv : (c.toNat + 32).isValidChar := Or.inl (by omega)
    have hn : (Char.ofNat (c.toNat + 32)).toNat = c.toNat + 32 := by
      unfold Char.ofNat
      rw [dif_pos hv]
      rfl
    rw [hn]
    omega
  · rw [if_neg h]
    exact h

lemma toLower_eq_self_of (d : Char) (h : ¬(d.toNat ≥ 65 ∧ d.toNat ≤ 90)) :
    d.toLower = d := by
  simp only [Char.toLower]
  rw [if_neg h]

lemma toLower_idem (c : Char) : c.toLower.toLower = c.toLower :=
  toLower_eq_self_of _ (toLower_notUpper c)

/-! Small list utilities. -/

lemma map_fix {α : Type} (f : α → α) :
    ∀ (l : List α), (∀ a ∈ l, f a = a) → l.map f = l := by
  intro l
  induction l with
  | nil => intro _; rfl
  | cons a l ih =>
    intro h
    simp only [List.map_cons, h a (by simp), ih (fun b hb => h b (by simp [hb]))]

lemma take1_dropWhile (p : Char → Bool) (l : List Char) :
    ∀ e ∈ (l.dropWhile p).take 1, p e = false := by
  induction l with
  | nil => intro e he; simp at he
  | cons a l ih =>
    intro e he
    cases ha : p a with
    | true =>
      simp only [List.dropWhile_cons, ha, if_true] at he
      exact ih e he
    | false =>
      simp [List.dropWhile_cons, ha] at he
      subst he; exact ha

lemma dropWhile_eq_self_of (p : Char → Bool) (l : List Char)
    (h : ∀ e ∈ l.take 1, p e = false) : l.dropWhile p = l := by
  cases l with
  | nil => rfl
  | cons a l =>
    have ha : p a = false := h a (by simp)
    rw [List.dropWhile_cons]
    simp [ha]

lemma dropWhile_append_of_ne_nil (p : Char → Bool) :
    ∀ (u v : List Char), u.dropWhile p ≠ [] →
      (u ++ v).dropWhile p = u.dropWhile p ++ v := by
  intro u
  induction u with
  | nil => intro v h; exact absurd rfl h
  | cons a u ih =>
    intro v h
    cases ha : p a with
    | false =>
      rw [List.cons_append, List.dropWhile_cons, List.dropWhile_cons]
      simp [ha]
    | true =>
      rw [List.cons_append, List.dropWhile_cons, List.dropWhile_cons]
      simp only [ha, if_true]
      rw [List.dropWhile_cons] at h
      simp only [ha, if_true] at h
      exact ih v h

lemma takeWhile_append_all (p : Char → Bool) :
    ∀ (u v : List Char), (∀ c ∈ u, p c = true) →
      (u ++ v).takeWhile p = u ++ v.takeWhile p := by
  intro u
  induction u with
  | nil => intro v _; rfl
  | cons a u ih =>
    intro v h
    rw [List.cons_append, List.takeWhile_cons]
    simp only [h a (by simp), if_true]
    rw [ih v (fun c hc => h c (by simp [hc])), List.cons_append]

lemma dropWhile_append_all (p : Char → Bool) :
    ∀ (u v : List Char), (∀ c ∈ u, p c = true) →
      (u ++ v).dropWhile p = v.dropWhile p := by
  intro u
  induction u with
  | nil => intro v _; rfl
  | cons a u ih =>
    intro v h
    rw [List.cons_append, List.dropWhile_cons]
    simp only [h a (by simp), if_true]
    exact ih v (fun c hc => h c (by simp [hc]))

lemma takeWhile_nil_of (p : Char → Bool) (v : List Char)
    (h : ∀ e ∈ v.take 1, p e = false) : v.takeWhile p = [] := by
  cases v with
  | nil => rfl
  | cons a v =>
    rw [List.takeWhile_cons]
    simp [h a (by simp)]

/-! The `re.sub` word-removal scanner: on a word run it either deletes the
whole run (when it is one of the alternatives) or copies it verbatim. -/

lemma find_of_unique {α : Type} [BEq α] [LawfulBEq α] (p : α → Bool) (a : α)
    (L : List α) (h : ∀ w ∈ L, p w = true ↔ w = a) :
    L.find? p = if a ∈ L then some a else none := by
  have key : ∀ (M : List α), (∀ w ∈ M, p w = true ↔ w = a) →
      M.find? p = if a ∈ M then some a else none := by
    intro M
    induction M with
    | nil => intro _; simp
    | cons w M ih =>
      intro hM
      by_cases hp : p w = true
      · have hw : w = a := (hM w (by simp)).mp hp
        subst hw
        rw [List.find?_cons_of_pos _ hp, if_pos (by simp)]
      · rw [List.find?_cons_of_neg _ hp,
          ih (fun w' hw' => hM w' (by simp [hw']))]
        have ha : a ∈ w :: M ↔ a ∈ M := by
          constructor
          · intro h'
            rcases List.mem_cons.mp h' with h'' | h''
            · exact absurd ((hM w (by simp)).mpr h''.symm) hp
            · exact h''
          · intro h'
            exact List.mem_cons_of_mem _ h'
        exact if_congr ha.symm rfl rfl
  exact key L h

lemma findWordMatch_nonword (L : List (List Char))
    (HL : ∀ w ∈ L, w ≠ [] ∧ ∀ c ∈ w, wordChar c = true)
    {e : Char} (he : wordChar e = false) (cs : List Char) :
    findWordMatch L (e :: cs) = none := by
  apply List.find?_eq_none.mpr
  intro w hw hcontra
  obtain ⟨hwne, hww⟩ := HL w hw
  obtain ⟨d, w', rfl⟩ := List.exists_cons_of_ne_nil hwne
  have hd : wordChar d = true := hww d (by simp)
  have hpre2 : ((d == e) && w'.isPrefixOf cs) = true := by
    have hpre : ((d :: w').isPrefixOf (e :: cs)) = true := by
      have h' : ((d :: w').isPrefixOf (e :: cs) &&
          (match (e :: cs).drop (d :: w').length with
           | [] => true
           | c :: _ => !wordChar c)) = true := hcontra
      simp only [Bool.and_eq_true] at h'
      exact h'.1
    exact hpre
  simp only [Bool.and_eq_true] at hpre2
  have hde : d = e := eq_of_beq hpre2.1
  rw [hde, he] at hd
  cases hd

lemma scan_nonword (L : List (List Char))
    (HL : ∀ w ∈ L, w ≠ [] ∧ ∀ c ∈ w, wordChar c = true)
    (prev : Bool) {e : Char} (he : wordChar e = false) (cs : List Char) :
    removeWordsAux L prev 0 (e :: cs) = e :: removeWordsAux L false 0 cs := by
  cases prev with
  | true =>
    have h1 : removeWordsAux L true 0 (e :: cs) =
        e :: removeWordsAux L (wordChar e) 0 cs := rfl
    rw [h1, he]
  | false =>
    have h1 : removeWordsAux L false 0 (e :: cs) =
        (match findWordMatch L (e :: cs) with
         | some w => removeWordsAux L true (w.length - 1) cs
         | none => e :: removeWordsAux L (wordChar e) 0 cs) := rfl
    rw [h1, findWordMatch_nonword L HL he cs]
    show e :: removeWordsAux L (wordChar e) 0 cs = _
    rw [he]

lemma scanTrue_word (L : List (List Char)) {c : Char} (hc : wordChar c = true)
    (cs : List Char) :
    removeWordsAux L true 0 (c :: cs) = c :: removeWordsAux L true 0 cs := by
  have h1 : removeWordsAux L true 0 (c :: cs) =
      c :: removeWordsAux L (wordChar c) 0 cs := rfl
  rw [h1, hc]

lemma scanTrue_run (L : List (List Char)) :
    ∀ (r rest : List Char), (∀ c ∈ r, wordChar c = true) →
      removeWordsAux L true 0 (r ++ rest) = r ++ removeWordsAux L true 0 rest := by
  intro r
  induction r with
  | nil => intro rest _; rfl
  | cons c r ih =>
    intro rest h
    rw [List.cons_append, scanTrue_word L (h c (by simp)) (r ++ rest),
        ih rest (fun d hd => h d (by simp [hd])), List.cons_append]

lemma skip_eat (L : List (List Char)) :
    ∀ (xs rest : List Char),
      removeWordsAux L true xs.length (xs ++ rest) = removeWordsAux L true 0 rest := by
  intro xs
  induction xs with
  | nil => intro rest; rfl
  | cons x xs ih => intro rest; exact ih rest

lemma scanTrue_eq_scanFalse (L : List (List Char))
    (HL : ∀ w ∈ L, w ≠ [] ∧ ∀ c ∈ w, wordChar c = true)
    (rest : List Char) (hrest : ∀ e ∈ rest.take 1, wordChar e = false) :
    removeWordsAux L true 0 rest = removeWordsAux L false 0 rest := by
  cases rest with
  | nil => rfl
  | cons e rest' =>
    have he : wordChar e = false := hrest e (by simp)
    rw [scan_nonword L HL true he rest', scan_nonword L HL false he rest']

lemma findWordMatch_run (L : List (List Char))
    (HL : ∀ w ∈ L, w ≠ [] ∧ ∀ c ∈ w, wordChar c = true)
    (r : List Char) (hrw : ∀ c ∈ r, wordChar c = true)
    (rest : List Char) (hrest : ∀ e ∈ rest.take 1, wordChar e = false) :
    findWordMatch L (r ++ rest) = if r ∈ L then some r else none := by
  apply find_of_unique
  intro w hwL
  obtain ⟨hwne, hww⟩ := HL w hwL
  constructor
  · intro h
    have h' : (w.isPrefixOf (r ++ rest) &&
        (match (r ++ rest).drop w.length with
         | [] => true
         | c :: _ => !wordChar c)) = true := h
    simp only [Bool.and_eq_true] at h'
    obtain ⟨hpre, hbnd⟩ := h'
    have hpre' : w <+: r ++ rest := List.isPrefixOf_iff_prefix.mp hpre
    have hple : w.length ≤ r.length + rest.length := by
      have hlen := hpre'.length_le
      simpa using hlen
    rcases lt_trichotomy w.length r.length with hlt | heq | hgt
    · exfalso
      have hdrop : (r ++ rest).drop w.length = r.drop w.length ++ rest := by
        rw [List.drop_append_eq_append_drop]
        have hz : w.length - r.length = 0 := by omega
        rw [hz, List.drop_zero]
      have hne : r.drop w.length ≠ [] := by
        rw [Ne, List.drop_eq_nil_iff]
        omega
      obtain ⟨d, t, hdt⟩ := List.exists_cons_of_ne_nil hne
      rw [hdrop, hdt, List.cons_append] at hbnd
      have hbd : (!wordChar d) = true := hbnd
      have hd : wordChar d = true :=
        hrw d (List.drop_subset _ _ (by rw [hdt]; simp))
      rw [hd] at hbd
      cases hbd
    · have htake : w = (r ++ rest).take w.length := List.prefix_iff_eq_take.mp hpre'
      rw [heq, List.take_left] at htake
      exact htake
    · exfalso
      have htake : w = (r ++ rest).take w.length := List.prefix_iff_eq_take.mp hpre'
      rw [List.take_append_eq_append_take, List.take_of_length_le (le_of_lt hgt)] at htake
      cases hre : rest with
      | nil =>
        rw [hre] at hple
        simp only [List.length_nil, Nat.add_zero] at hple
        omega
      | cons e rest2 =>
        have he : wordChar e = false := hrest e (by rw [hre]; simp)
        have hk : w.length - r.length = (w.length - r.length - 1) + 1 := by omega
        rw [hre, hk, List.take_succ_cons] at htake
        have he' : e ∈ w := by
          rw [htake]
          exact List.mem_append_right _ (by simp)
        rw [hww e he'] at he
        cases he
  · intro h
    subst h
    have h1 : w.isPrefixOf (w ++ rest) = true :=
      List.isPrefixOf_iff_prefix.mpr (List.prefix_append w rest)
    show (w.isPrefixOf (w ++ rest) &&
        (match (w ++ rest).drop w.length with
         | [] => true
         | c :: _ => !wordChar c)) = true
    rw [List.drop_left, h1, Bool.true_and]
    cases hre : rest with
    | nil => rfl
    | cons e rest2 =>
      have he : wordChar e = false := hrest e (by rw [hre]; simp)
      show (!wordChar e) = true
      rw [he]
      rfl

lemma scanF_run (L : List (List Char))
    (HL : ∀ w ∈ L, w ≠ [] ∧ ∀ c ∈ w, wordChar c = true)
    (r : List Char) (hrne : r ≠ []) (hrw : ∀ c ∈ r, wordChar c = true)
    (rest : List Char) (hrest : ∀ e ∈ rest.take 1, wordChar e = false) :
    removeWordsAux L false 0 (r ++ rest) =
      (if r ∈ L then [] else r) ++ removeWordsAux L false 0 rest := by
  obtain ⟨c, r', rfl⟩ := List.exists_cons_of_ne_nil hrne
  have hf : findWordMatch L ((c :: r') ++ rest) =
      if (c :: r') ∈ L then some (c :: r') else none :=
    findWordMatch_run L HL (c :: r') hrw rest hrest
  rw [List.cons_append] at hf
  rw [List.cons_append]
  have h1 : removeWordsAux L false 0 (c :: (r' ++ rest)) =
      (match findWordMatch L (c :: (r' ++ rest)) with
       | some w => removeWordsAux L true (w.length - 1) (r' ++ rest)
       | none => c :: removeWordsAux L (wordChar c) 0 (r' ++ rest)) := rfl
  rw [h1, hf]
  by_cases hmem : (c :: r') ∈ L
  · rw [if_pos hmem, if_pos hmem]
    show removeWordsAux L true ((c :: r').length - 1) (r' ++ rest) =
      [] ++ removeWordsAux L false 0 rest
    have hlen : (c :: r').length - 1 = r'.length := by simp
    rw [hlen, skip_eat, scanTrue_eq_scanFalse L HL rest hrest, List.nil_append]
  · rw [if_neg hmem, if_neg hmem]
    show c :: removeWordsAux L (wordChar c) 0 (r' ++ rest) =
      (c :: r') ++ removeWordsAux L false 0 rest
    have hc : wordChar c = true := hrw c (by simp)
    rw [hc, scanTrue_run L r' rest (fun d hd => hrw d (by simp [hd])),
        scanTrue_eq_scanFalse L HL rest hrest, List.cons_append]

/-! Word-run structure of strings and of the scanner's output. -/

lemma wordRuns_nil : wordRuns [] = [] := by
  simp [wordRuns]

lemma wordRuns_cons_word {c : Char} (hc : wordChar c = true) (cs : List Char) :
    wordRuns (c :: cs) =
      (c :: cs.takeWhile wordChar) :: wordRuns (cs.dropWhile wordChar) := by
  simp [wordRuns, hc]

lemma wordRuns_cons_nonword {c : Char} (hc : wordChar c = false) (cs : List Char) :
    wordRuns (c :: cs) = wordRuns cs := by
  simp [wordRuns, hc]

lemma runs_append_run (r : List Char) (hrne : r ≠ [])
    (hrw : ∀ c ∈ r, wordChar c = true)
    (z : List Char) (hz : ∀ e ∈ z.take 1, wordChar e = false) :
    wordRuns (r ++ z) = r :: wordRuns z := by
  obtain ⟨c, r', rfl⟩ := List.exists_cons_of_ne_nil hrne
  have hc : wordChar c = true := hrw c (by simp)
  rw [List.cons_append, wordRuns_cons_word hc]
  have h1 : (r' ++ z).takeWhile wordChar = r' ++ z.takeWhile wordChar :=
    takeWhile_append_all _ r' z (fun d hd => hrw d (by simp [hd]))
  have h2 : (r' ++ z).dropWhile wordChar = z.dropWhile wordChar :=
    dropWhile_append_all _ r' z (fun d hd => hrw d (by simp [hd]))
  rw [h1, h2, takeWhile_nil_of _ z hz, dropWhile_eq_self_of _ z hz, List.append_nil]

lemma wordRuns_prop : ∀ (n : Nat) (y : List Char), y.length ≤ n →
    ∀ r ∈ wordRuns y,
      (r ≠ [] ∧ ∀ c ∈ r, wordChar c = true) ∧ ∀ c ∈ r, c ∈ y := by
  intro n
  induction n with
  | zero =>
    intro y hy r hr
    have hy0 : y = [] := List.length_eq_zero.mp (Nat.le_zero.mp hy)
    subst hy0
    rw [wordRuns_nil] at hr
    simp at hr
  | succ n ih =>
    intro y hy r hr
    cases y with
    | nil =>
      rw [wordRuns_nil] at hr
      simp at hr
    | cons c cs =>
      have hcs : cs.length ≤ n := by
        simp only [List.length_cons] at hy
        omega
      cases hc : wordChar c with
      | false =>
        rw [wordRuns_cons_nonword hc] at hr
        obtain ⟨hprop, hsub⟩ := ih cs hcs r hr
        exact ⟨hprop, fun d hd => List.mem_cons_of_mem c (hsub d hd)⟩
      | true =>
        rw [wordRuns_cons_word hc] at hr
        rcases List.mem_cons.mp hr with h | h
        · subst h
          refine ⟨⟨List.cons_ne_nil _ _, ?_⟩, ?_⟩
          · intro d hd
            rcases List.mem_cons.mp hd with h' | h'
            · rw [h']; exact hc
            · exact List.mem_takeWhile_imp h'
          · intro d hd
            rcases List.mem_cons.mp hd with h' | h'
            · rw [h']; simp
            · exact List.mem_cons_of_mem c ((List.takeWhile_sublist _).subset h')
        · have hlen : (cs.dropWhile wordChar).length ≤ n :=
            le_trans (List.dropWhile_sublist _).length_le hcs
          obtain ⟨hprop, hsub⟩ := ih (cs.dropWhile wordChar) hlen r h
          exact ⟨hprop,
            fun d hd => List.mem_cons_of_mem c ((List.dropWhile_sublist _).subset (hsub d hd))⟩

lemma wordRuns_run_prop {y r : List Char} (hr : r ∈ wordRuns y) :
    (r ≠ [] ∧ ∀ c ∈ r, wordChar c = true) ∧ ∀ c ∈ r, c ∈ y :=
  wordRuns_prop y.length y le_rfl r hr

lemma wordRuns_dropWhile_space (l : List Char) :
    wordRuns (l.dropWhile pySpace) = wordRuns l := by
  induction l with
  | nil => rfl
  | cons a l ih =>
    cases ha : pySpace a with
    | true =>
      rw [List.dropWhile_cons]
      simp only [ha, if_true]
      rw [ih, wordRuns_cons_nonword (space_not_word ha)]
    | false =>
      rw [List.dropWhile_cons]
      simp [ha]

lemma scanF_take1 (L : List (List Char))
    (HL : ∀ w ∈ L, w ≠ [] ∧ ∀ c ∈ w, wordChar c = true)
    (rest : List Char) (hrest : ∀ e ∈ rest.take 1, wordChar e = false) :
    ∀ e ∈ (removeWordsAux L false 0 rest).take 1, wordChar e = false := by
  cases rest with
  | nil =>
    intro e he
    rw [show removeWordsAux L false 0 [] = [] from rfl] at he
    simp at he
  | cons a rest' =>
    intro e he
    have ha : wordChar a = false := hrest a (by simp)
    rw [scan_nonword L HL false ha rest'] at he
    simp at he
    subst he
    exact ha

lemma scanF_runs_aux (L : List (List Char))
    (HL : ∀ w ∈ L, w ≠ [] ∧ ∀ c ∈ w, wordChar c = true) :
    ∀ (n : Nat) (x : List Char), x.length ≤ n →
      wordRuns (removeWordsAux L false 0 x) =
        (wordRuns x).filter (fun r => !decide (r ∈ L)) := by
  intro n
  induction n with
  | zero =>
    intro x hx
    have hx0 : x = [] := List.length_eq_zero.mp (Nat.le_zero.mp hx)
    subst hx0
    rw [show removeWordsAux L false 0 [] = [] from rfl, wordRuns_nil]
    rfl
  | succ n ih =>
    intro x hx
    cases x with
    | nil =>
      rw [show removeWordsAux L false 0 [] = [] from rfl, wordRuns_nil]
      rfl
    | cons c cs =>
      have hcs : cs.length ≤ n := by
        simp only [List.length_cons] at hx
        omega
      cases hc : wordChar c with
      | false =>
        rw [scan_nonword L HL false hc cs, wordRuns_cons_nonword hc,
            wordRuns_cons_nonword hc, ih cs hcs]
      | true =>
        have hsplit : c :: cs = (c :: cs.takeWhile wordChar) ++ cs.dropWhile wordChar := by
          rw [List.cons_append, List.takeWhile_append_dropWhile]
        have hrw : ∀ d ∈ c :: cs.takeWhile wordChar, wordChar d = true := by
          intro d hd
          rcases List.mem_cons.mp hd with h | h
          · rw [h]; exact hc
          · exact List.mem_takeWhile_imp h
        have hrest : ∀ e ∈ (cs.dropWhile wordChar).take 1, wordChar e = false :=
          take1_dropWhile wordChar cs
        have hlen : (cs.dropWhile wordChar).length ≤ n :=
          le_trans (List.dropWhile_sublist _).length_le hcs
        rw [hsplit, scanF_run L HL _ (List.cons_ne_nil _ _) hrw _ hrest,
            runs_append_run _ (List.cons_ne_nil _ _) hrw _ hrest]
        by_cases hmem : (c :: cs.takeWhile wordChar) ∈ L
        · rw [if_pos hmem, List.nil_append, ih _ hlen, List.filter_cons]
          simp [hmem]
        · rw [if_neg hmem,
              runs_append_run _ (List.cons_ne_nil _ _) hrw _ (scanF_take1 L HL _ hrest),
              ih _ hlen, List.filter_cons]
          simp [hmem]

lemma scanF_runs (L : List (List Char))
    (HL : ∀ w ∈ L, w ≠ [] ∧ ∀ c ∈ w, wordChar c = true) (x : List Char) :
    wordRuns (removeWordsAux L false 0 x) =
      (wordRuns x).filter (fun r => !decide (r ∈ L)) :=
  scanF_runs_aux L HL x.length x le_rfl

/-! Punctuation replacement, whitespace collapsing, and stripping. -/

lemma bnot_true {b : Bool} (h : ¬ b = true) : b = false := by
  cases hb : b with
  | false => rfl
  | true => exact absurd hb h

lemma punct_wordChar (c : Char) :
    wordChar (if !wordChar c && !pySpace c then ' ' else c) = wordChar c := by
  cases hc : wordChar c with
  | true => simp [hc]
  | false =>
    by_cases hs : pySpace c = true
    · simp [hc, hs]
    · simp [hc, bnot_true hs, show wordChar ' ' = false from by decide]

lemma punct_class (y : List Char) :
    ∀ c ∈ punctToSpace y, wordChar c = true ∨ pySpace c = true := by
  intro c hcm
  obtain ⟨c0, hc0, rfl⟩ := List.mem_map.mp hcm
  by_cases hw : wordChar c0 = true
  · left
    rw [punct_wordChar c0]
    exact hw
  · right
    by_cases hs : pySpace c0 = true
    · rw [show (if !wordChar c0 && !pySpace c0 then ' ' else c0) = c0 from by simp [hs]]
      exact hs
    · rw [show (if !wordChar c0 && !pySpace c0 then ' ' else c0) = ' ' from by
        simp [bnot_true hw, bnot_true hs]]
      decide

lemma punct_take1 (rest : List Char) (h : ∀ e ∈ rest.take 1, wordChar e = false) :
    ∀ e ∈ (punctToSpace rest).take 1, wordChar e = false := by
  cases rest with
  | nil => intro e he; simp [punctToSpace] at he
  | cons a rest' =>
    intro e he
    have ha : wordChar a = false := h a (by simp)
    have hhead : punctToSpace (a :: rest') =
        (if !wordChar a && !pySpace a then ' ' else a) :: punctToSpace rest' := rfl
    rw [hhead] at he
    have htk : (((if !wordChar a && !pySpace a then ' ' else a) ::
        punctToSpace rest').take 1) = [if !wordChar a && !pySpace a then ' ' else a] := rfl
    rw [htk] at he
    rw [List.mem_singleton.mp he, punct_wordChar a]
    exact ha

lemma punct_runs_aux : ∀ (n : Nat) (y : List Char), y.length ≤ n →
    wordRuns (punctToSpace y) = wordRuns y := by
  intro n
  induction n with
  | zero =>
    intro y hy
    have hy0 : y = [] := List.length_eq_zero.mp (Nat.le_zero.mp hy)
    subst hy0
    rfl
  | succ n ih =>
    intro y hy
    cases y with
    | nil => rfl
    | cons c cs =>
      have hcs : cs.length ≤ n := by
        simp only [List.length_cons] at hy
        omega
      have hmap : punctToSpace (c :: cs) =
          (if !wordChar c && !pySpace c then ' ' else c) :: punctToSpace cs := rfl
      cases hc : wordChar c with
      | false =>
        rw [hmap, wordRuns_cons_nonword (by rw [punct_wordChar]; exact hc),
            wordRuns_cons_nonword hc]
        exact ih cs hcs
      | true =>
        have hsplit : c :: cs = (c :: cs.takeWhile wordChar) ++ cs.dropWhile wordChar := by
          rw [List.cons_append, List.takeWhile_append_dropWhile]
        have hrw : ∀ d ∈ c :: cs.takeWhile wordChar, wordChar d = true := by
          intro d hd
          rcases List.mem_cons.mp hd with h | h
          · rw [h]; exact hc
          · exact List.mem_takeWhile_imp h
        have hrest : ∀ e ∈ (cs.dropWhile wordChar).take 1, wordChar e = false :=
          take1_dropWhile wordChar cs
        have hlen : (cs.dropWhile wordChar).length ≤ n :=
          le_trans (List.dropWhile_sublist _).length_le hcs
        have hpm : punctToSpace ((c :: cs.takeWhile wordChar) ++ cs.dropWhile wordChar) =
            (c :: cs.takeWhile wordChar) ++ punctToSpace (cs.dropWhile wordChar) := by
          show ((c :: cs.takeWhile wordChar) ++ cs.dropWhile wordChar).map _ = _
          rw [List.map_append]
          rw [map_fix _ (c :: cs.takeWhile wordChar)
            (fun d hd => by simp [hrw d hd])]
          rfl
        rw [hsplit, hpm,
            runs_append_run _ (List.cons_ne_nil _ _) hrw _ (punct_take1 _ hrest),
            runs_append_run _ (List.cons_ne_nil _ _) hrw _ hrest,
            ih _ hlen]

lemma punct_runs (y : List Char) : wordRuns (punctToSpace y) = wordRuns y :=
  punct_runs_aux y.length y le_rfl

lemma collapseAux_true (cs : List Char) :
    collapseSpacesAux true cs = collapseSpacesAux false (cs.dropWhile pySpace) := by
  induction cs with
  | nil => rfl
  | cons a cs ih =>
    cases ha : pySpace a with
    | true =>
      rw [show collapseSpacesAux true (a :: cs) = collapseSpacesAux true cs from by
            simp [collapseSpacesAux, ha],
          show (a :: cs).dropWhile pySpace = cs.dropWhile pySpace from by
            simp [List.dropWhile_cons, ha]]
      exact ih
    | false =>
      rw [show collapseSpacesAux true (a :: cs) = a :: collapseSpacesAux false cs from by
            simp [collapseSpacesAux, ha],
          show (a :: cs).dropWhile pySpace = a :: cs from by
            simp [List.dropWhile_cons, ha],
          show collapseSpacesAux false (a :: cs) = a :: collapseSpacesAux false cs from by
            simp [collapseSpacesAux, ha]]

lemma collapse_run (r : List Char) (hrw : ∀ c ∈ r, wordChar c = true) :
    ∀ (rest : List Char),
      collapseSpacesAux false (r ++ rest) = r ++ collapseSpacesAux false rest := by
  induction r with
  | nil => intro rest; rfl
  | cons c r ih =>
    intro rest
    have hc : pySpace c = false := word_not_space (hrw c (by simp))
    rw [List.cons_append,
        show collapseSpacesAux false (c :: (r ++ rest)) =
          c :: collapseSpacesAux false (r ++ rest) from by simp [collapseSpacesAux, hc],
        ih (fun d hd => hrw d (by simp [hd])) rest, List.cons_append]

lemma strip_cons_space (z : List Char) : pyStripL (' ' :: z) = pyStripL z := by
  unfold pyStripL
  rw [List.dropWhile_cons]
  simp [show pySpace ' ' = true from by decide]

lemma strip_nospace (r : List Char) (h : ∀ c ∈ r, pySpace c = false) :
    pyStripL r = r := by
  unfold pyStripL
  rw [dropWhile_eq_self_of _ r (fun e he => h e (List.take_subset _ _ he)),
      dropWhile_eq_self_of _ r.reverse
        (fun e he => h e (List.mem_reverse.mp (List.take_subset _ _ he))),
      List.reverse_reverse]

lemma strip_word_trailing (r : List Char) (hrne : r ≠ [])
    (hrw : ∀ c ∈ r, wordChar c = true) : pyStripL (r ++ [' ']) = r := by
  obtain ⟨c, r', rfl⟩ := List.exists_cons_of_ne_nil hrne
  have hno : ∀ e ∈ c :: r', pySpace e = false := fun e he => word_not_space (hrw e he)
  unfold pyStripL
  rw [List.cons_append,
      dropWhile_eq_self_of _ (c :: (r' ++ [' ']))
        (fun e he => by simp at he; rw [he]; exact hno c (by simp))]
  have h1 : (c :: (r' ++ [' '])).reverse = ' ' :: (c :: r').reverse := by
    rw [show c :: (r' ++ [' ']) = (c :: r') ++ [' '] from by rw [List.cons_append],
        List.reverse_append]
    simp
  rw [h1, List.dropWhile_cons]
  simp only [show pySpace ' ' = true from by decide, if_true]
  rw [dropWhile_eq_self_of _ (c :: r').reverse
        (fun e he => hno e (List.mem_reverse.mp (List.take_subset _ _ he))),
      List.reverse_reverse]

lemma strip_sandwich (r : List Char) (hrne : r ≠ [])
    (hrw : ∀ c ∈ r, wordChar c = true)
    (z : List Char) (hzne : z ≠ []) (hzh : ∀ e ∈ z.take 1, wordChar e = true) :
    pyStripL (r ++ ' ' :: z) = r ++ ' ' :: pyStripL z := by
  obtain ⟨c, r', rfl⟩ := List.exists_cons_of_ne_nil hrne
  obtain ⟨f, z', rfl⟩ := List.exists_cons_of_ne_nil hzne
  have hf : wordChar f = true := hzh f (by simp)
  have hno : ∀ e ∈ c :: r', pySpace e = false := fun e he => word_not_space (hrw e he)
  unfold pyStripL
  rw [List.cons_append,
      dropWhile_eq_self_of _ (c :: (r' ++ ' ' :: f :: z'))
        (fun e he => by simp at he; rw [he]; exact hno c (by simp)),
      dropWhile_eq_self_of _ (f :: z')
        (fun e he => by simp at he; rw [he]; exact word_not_space hf)]
  have h1 : (c :: (r' ++ ' ' :: f :: z')).reverse =
      (f :: z').reverse ++ ' ' :: (c :: r').reverse := by
    rw [show c :: (r' ++ ' ' :: f :: z') = (c :: r') ++ (' ' :: (f :: z')) from by
          rw [List.cons_append],
        List.reverse_append, List.reverse_cons, List.append_assoc,
        List.singleton_append]
  have hne2 : (f :: z').reverse.dropWhile pySpace ≠ [] := by
    intro hcontra
    rw [List.dropWhile_eq_nil_iff] at hcontra
    have hsp := hcontra f (by simp)
    rw [word_not_space hf] at hsp
    cases hsp
  rw [h1, dropWhile_append_of_ne_nil _ _ _ hne2, List.reverse_append,
      List.reverse_cons, List.reverse_reverse, List.append_assoc,
      List.singleton_append]

lemma intercalate_single_sp (r : List Char) : List.intercalate [' '] [r] = r := by
  simp [List.intercalate]

lemma intercalate_cons2_sp (r w : List Char) (t : List (List Char)) :
    List.intercalate [' '] (r :: w :: t) =
      r ++ ' ' :: List.intercalate [' '] (w :: t) := by
  simp [List.intercalate]

/-! The normalized string is the space-join of the surviving word runs. -/

lemma collapse_strip_aux : ∀ (n : Nat) (y : List Char), y.length ≤ n →
    (∀ c ∈ y, wordChar c = true ∨ pySpace c = true) →
    pyStripL (collapseSpacesAux false y) = List.intercalate [' '] (wordRuns y) := by
  intro n
  induction n with
  | zero =>
    intro y hy _
    have hy0 : y = [] := List.length_eq_zero.mp (Nat.le_zero.mp hy)
    subst hy0
    rw [wordRuns_nil]
    rfl
  | succ n ih =>
    intro y hy hclass
    cases y with
    | nil =>
      rw [wordRuns_nil]
      rfl
    | cons c cs =>
      have hcs : cs.length ≤ n := by
        simp only [List.length_cons] at hy
        omega
      cases hc : wordChar c with
      | false =>
        have hs : pySpace c = true := by
          rcases hclass c (by simp) with h | h
          · rw [hc] at h; cases h
          · exact h
        rw [show collapseSpacesAux false (c :: cs) = ' ' :: collapseSpacesAux true cs from by
              simp [collapseSpacesAux, hs],
            collapseAux_true cs, strip_cons_space,
            ih (cs.dropWhile pySpace)
              (le_trans (List.dropWhile_sublist _).length_le hcs)
              (fun d hd => hclass d
                (List.mem_cons_of_mem c ((List.dropWhile_sublist _).subset hd))),
            wordRuns_cons_nonword hc, wordRuns_dropWhile_space]
      | true =>
        have hsplit : c :: cs = (c :: cs.takeWhile wordChar) ++ cs.dropWhile wordChar := by
          rw [List.cons_append, List.takeWhile_append_dropWhile]
        have hrw : ∀ d ∈ c :: cs.takeWhile wordChar, wordChar d = true := by
          intro d hd
          rcases List.mem_cons.mp hd with h | h
          · rw [h]; exact hc
          · exact List.mem_takeWhile_imp h
        have hrest : ∀ e ∈ (cs.dropWhile wordChar).take 1, wordChar e = false :=
          take1_dropWhile wordChar cs
        rw [hsplit, collapse_run _ hrw _,
            runs_append_run _ (List.cons_ne_nil _ _) hrw _ hrest]
        cases hre : cs.dropWhile wordChar with
        | nil =>
          rw [show collapseSpacesAux false ([] : List Char) = [] from rfl,
              List.append_nil, wordRuns_nil, intercalate_single_sp]
          exact strip_nospace _ (fun d hd => word_not_space (hrw d hd))
        | cons e rest2 =>
          have hesp : pySpace e = true := by
            have hew : wordChar e = false := by
              have := hrest e (by rw [hre]; simp)
              exact this
            have hey : e ∈ c :: cs := by
              have h1 : e ∈ List.dropWhile wordChar cs := by rw [hre]; simp
              exact List.mem_cons_of_mem c ((List.dropWhile_sublist wordChar).subset h1)
            rcases hclass e hey with h | h
            · rw [hew] at h; cases h
            · exact h
          rw [show collapseSpacesAux false (e :: rest2) =
                ' ' :: collapseSpacesAux true rest2 from by simp [collapseSpacesAux, hesp],
              collapseAux_true rest2]
          have hsub2 : ∀ d ∈ rest2.dropWhile pySpace, d ∈ c :: cs := by
            intro d hd
            refine List.mem_cons_of_mem c ((List.dropWhile_sublist wordChar).subset ?_)
            rw [hre]
            exact List.mem_cons_of_mem e ((List.dropWhile_sublist pySpace).subset hd)
          have hlen2 : (rest2.dropWhile pySpace).length ≤ n := by
            have h1 : (rest2.dropWhile pySpace).length ≤ rest2.length :=
              (List.dropWhile_sublist _).length_le
            have h2 : (e :: rest2).length ≤ cs.length := by
              rw [← hre]
              exact (List.dropWhile_sublist _).length_le
            simp only [List.length_cons] at h2
            omega
          have hruns2 : wordRuns rest2 = wordRuns (rest2.dropWhile pySpace) :=
            (wordRuns_dropWhile_space rest2).symm
          rw [wordRuns_cons_nonword (space_not_word hesp), hruns2]
          cases hre3 : rest2.dropWhile pySpace with
          | nil =>
            rw [show collapseSpacesAux false ([] : List Char) = [] from rfl,
                wordRuns_nil, intercalate_single_sp]
            exact strip_word_trailing _ (List.cons_ne_nil _ _) hrw
          | cons f rest4 =>
            have hfw : wordChar f = true := by
              have hfs : pySpace f = false := by
                have := take1_dropWhile pySpace rest2 f (by rw [hre3]; simp)
                exact this
              rcases hclass f (hsub2 f (by rw [hre3]; simp)) with h | h
              · exact h
              · rw [hfs] at h; cases h
            have hz : collapseSpacesAux false (f :: rest4) =
                f :: collapseSpacesAux false rest4 := by
              simp [collapseSpacesAux, word_not_space hfw]
            have hih := ih (f :: rest4) (by rw [← hre3]; exact hlen2)
              (fun d hd => hclass d (hsub2 d (by rw [hre3]; exact hd)))
            rw [strip_sandwich _ (List.cons_ne_nil _ _) hrw _
                  (by rw [hz]; exact List.cons_ne_nil _ _)
                  (by rw [hz]; intro d hd; simp at hd; rw [hd]; exact hfw),
                hih, wordRuns_cons_word hfw, intercalate_cons2_sp,
                ← wordRuns_cons_word hfw]

lemma collapse_strip (y : List Char)
    (hclass : ∀ c ∈ y, wordChar c = true ∨ pySpace c = true) :
    pyStripL (collapseSpaces y) = List.intercalate [' '] (wordRuns y) :=
  collapse_strip_aux y.length y le_rfl hclass

lemma runs_intercalate : ∀ (ws : List (List Char)),
    (∀ r ∈ ws, r ≠ [] ∧ ∀ c ∈ r, wordChar c = true) →
    wordRuns (List.intercalate [' '] ws) = ws := by
  intro ws
  induction ws with
  | nil =>
    intro _
    rw [show List.intercalate [' '] ([] : List (List Char)) = [] from rfl, wordRuns_nil]
  | cons r ws ih =>
    intro h
    obtain ⟨hrne, hrw⟩ := h r (by simp)
    cases ws with
    | nil =>
      rw [intercalate_single_sp]
      have hr := runs_append_run r hrne hrw [] (by simp)
      rw [List.append_nil] at hr
      rw [hr, wordRuns_nil]
    | cons w t =>
      rw [intercalate_cons2_sp,
          runs_append_run r hrne hrw _
            (by intro e he; simp at he; rw [he]; decide),
          wordRuns_cons_nonword (show wordChar ' ' = false from by decide),
          ih (fun r' hr' => h r' (List.mem_cons_of_mem _ hr'))]

lemma mem_intercalate_sp (c : Char) : ∀ (ws : List (List Char)),
    c ∈ List.intercalate [' '] ws → c = ' ' ∨ ∃ r ∈ ws, c ∈ r := by
  intro ws
  induction ws with
  | nil =>
    intro h
    rw [show List.intercalate [' '] ([] : List (List Char)) = [] from rfl] at h
    simp at h
  | cons r ws ih =>
    cases ws with
    | nil =>
      intro h
      rw [intercalate_single_sp] at h
      exact Or.inr ⟨r, by simp, h⟩
    | cons w t =>
      intro h
      rw [intercalate_cons2_sp] at h
      rcases List.mem_append.mp h with h' | h'
      · exact Or.inr ⟨r, by simp, h'⟩
      · rcases List.mem_cons.mp h' with h'' | h''
        · exact Or.inl h''
        · rcases ih h'' with h3 | ⟨r', hr', hcr⟩
          · exact Or.inl h3
          · exact Or.inr ⟨r', List.mem_cons_of_mem _ hr', hcr⟩

lemma dedupNormalizeL_closed (x : List Char) :
    dedupNormalizeL x = List.intercalate [' ']
      (((wordRuns (pyLower x)).filter (fun r => !decide (r ∈ legalWords1))).filter
        (fun r => !decide (r ∈ legalWords2))) := by
  have hL1 : ∀ w ∈ legalWords1, w ≠ [] ∧ ∀ c ∈ w, wordChar c = true := by decide
  have hL2 : ∀ w ∈ legalWords2, w ≠ [] ∧ ∀ c ∈ w, wordChar c = true := by decide
  by_cases hx : x = []
  · subst hx
    rw [show dedupNormalizeL [] = [] from by simp [dedupNormalizeL],
        show pyLower [] = [] from rfl, wordRuns_nil]
    rfl
  · unfold dedupNormalizeL
    rw [if_neg hx]
    unfold collapseSpaces
    rw [collapse_strip_aux (punctToSpace (removeWordsAux legalWords2 false 0
          (removeWordsAux legalWords1 false 0 (pyLower x)))).length _ le_rfl
          (punct_class _),
        punct_runs, scanF_runs legalWords2 hL2 _, scanF_runs legalWords1 hL1 _]

lemma dedupNormalizeL_idem (l : List Char) :
    dedupNormalizeL (dedupNormalizeL l) = dedupNormalizeL l := by
  have hG := dedupNormalizeL_closed l
  rw [dedupNormalizeL_closed (dedupNormalizeL l), hG]
  have hws : ∀ r ∈ ((wordRuns (pyLower l)).filter
        (fun r => !decide (r ∈ legalWords1))).filter
        (fun r => !decide (r ∈ legalWords2)),
      r ∈ wordRuns (pyLower l) ∧
        (!decide (r ∈ legalWords1)) = true ∧ (!decide (r ∈ legalWords2)) = true := by
    intro r hr
    obtain ⟨hr1, hp2⟩ := List.mem_filter.mp hr
    obtain ⟨hr0, hp1⟩ := List.mem_filter.mp hr1
    exact ⟨hr0, hp1, hp2⟩
  have hlower : pyLower (List.intercalate [' ']
      (((wordRuns (pyLower l)).filter (fun r => !decide (r ∈ legalWords1))).filter
        (fun r => !decide (r ∈ legalWords2)))) =
      List.intercalate [' ']
      (((wordRuns (pyLower l)).filter (fun r => !decide (r ∈ legalWords1))).filter
        (fun r => !decide (r ∈ legalWords2))) := by
    apply map_fix
    intro a ha
    rcases mem_intercalate_sp a _ ha with h | ⟨r, hr, har⟩
    · rw [h]; decide
    · have hr0 : r ∈ wordRuns (pyLower l) := (hws r hr).1
      have hal : a ∈ pyLower l := (wordRuns_run_prop hr0).2 a har
      obtain ⟨a0, _, ha0⟩ := List.mem_map.mp hal
      rw [← ha0]
      exact toLower_idem a0
  rw [hlower,
      runs_intercalate _ (fun r hr => (wordRuns_run_prop (hws r hr).1).1),
      List.filter_eq_self.mpr (fun r hr => (hws r hr).2.1),
      List.filter_eq_self.mpr (fun r hr => (hws r hr).2.2)]

set_option maxRecDepth 16000 in
/-- C4, counterexample: the evaluator's `normalize_organization_name` is NOT
idempotent.  On "acme-inc" the end-anchored suffix patterns do not fire (the
hyphen is not whitespace), and the punctuation pass then yields "acme inc";
a second application now matches the ",?\s+inc\.?$" suffix and returns
"acme". -/
theorem eval_normalize_not_idempotent :
    evalNormalize (evalNormalize "acme-inc") ≠ evalNormalize "acme-inc" := by
  decide

/-- C4, amended: the Deduplicator's `normalize_organization_name` IS
idempotent.  One pass leaves exactly the lowercased word runs of the input,
minus the two banned word lists, joined by single spaces; every stage of a
second pass fixes such strings. -/
theorem dedup_normalize_idempotent (s : String) :
    dedupNormalize (dedupNormalize s) = dedupNormalize s :=
  congrArg String.mk (dedupNormalizeL_idem s.data)

end ICP
